import Mathlib

/-!
Shallow embedding of `src/castep_outputs/parse_castep_file.py` (the run-segmentation
and block-dispatch engine of castep_outputs) together with theorems settling the
frozen claims about it.

Modelling conventions:
* Input lines are modelled by the inductive `Line`, whose constructors classify a
  physical log line by which of the source's regular expressions it matches, and
  carry the captured groups.  The numeric text captured by a numeric regular
  expression (`FNUMBER_RE` etc.) is represented by the exact rational value the
  decimal literal denotes; CASTEP prints each quantity in one fixed format, so two
  captures are the same text iff they are the same rational.
* Python values held in the accumulator dicts are modelled by `Val`, which keeps
  the type distinction the source cares about: uncoerced numeric text (`Val.str`),
  non-numeric text (`Val.txt`), floats (`Val.flt`), ints (`Val.intv`) and the
  explicit absent value `None` (`Val.nil`).  Floats are idealised as rationals:
  every numeric fact proved below involves only values that IEEE doubles represent
  exactly.
* Python dicts are modelled as insertion-ordered association lists.
* Fallible Python code (KeyError, IndexError, AttributeError, ValueError/TypeError,
  the explicit raise at end of input inside the phonon look-ahead) is modelled with
  `Except PErr`.
* `utility.py` is not part of the given sources; the helpers imported from it
  (`get_block`, `stack_dict`, `fix_data_types`, `to_type`, `add_aliases`,
  `get_numbers`) are modelled from the specification, as marked on each
  definition.
-/

namespace CastepOut

/-- Errors with which the modelled parse can abort.  `unexpectedEof` is the fatal
end-of-input abort raised inside the phonon look-ahead; `unterminated` is the
block extractor's end-of-input failure; the remaining constructors model the
corresponding Python exceptions.  `noFuel` is an artifact of the fuelled main
loop and is unreachable for the fuel `parseCastepFile` supplies. -/
inductive PErr where
  | keyError (k : String)
  | attributeError
  | typeError
  | indexError
  | valueError
  | unexpectedEof
  | unterminated
  | noFuel
deriving DecidableEq, Repr

/-- A value stored in one of the parser's accumulator dicts. -/
inductive Val where
  | str (q : Rat)
  | txt (s : String)
  | flt (q : Rat)
  | intv (n : Int)
  | nil
deriving DecidableEq, Repr

/-- Python truthiness of a `Val`.  Numeric text is a nonempty string and hence
always truthy, whatever number it denotes. -/
def valTruthy : Val → Bool
  | .str _ => true
  | .txt s => !s.isEmpty
  | .flt q => q != 0
  | .intv n => n != 0
  | .nil => false

/-- Python `float(v)` on a stored value: numeric text and numbers convert, other
text raises ValueError, `None` raises TypeError. -/
def pyFloat : Val → Except PErr Rat
  | .str q => .ok q
  | .flt q => .ok q
  | .intv n => .ok n
  | .txt _ => .error .valueError
  | .nil => .error .typeError

/-- Association-list lookup (Python `d[k]` when the key may be absent). -/
def alGet {κ α : Type} [DecidableEq κ] : List (κ × α) → κ → Option α
  | [], _ => Option.none
  | (k', v) :: rest, k => if k' = k then Option.some v else alGet rest k

/-- Association-list update, keeping insertion order; a new key is appended at
the end, as in a Python dict. -/
def alSet {κ α : Type} [DecidableEq κ] : List (κ × α) → κ → α → List (κ × α)
  | [], k, v => [(k, v)]
  | (k', v') :: rest, k, v =>
    if k' = k then (k', v) :: rest else (k', v') :: alSet rest k v

/-- Association-list key deletion (Python `del d[k]`; keys are unique in every
dict built below). -/
def alDel {κ α : Type} [DecidableEq κ] : List (κ × α) → κ → List (κ × α)
  | [], _ => []
  | (k', v') :: rest, k => if k' = k then rest else (k', v') :: alDel rest k

/-- A columnar accumulator: each key holds the list of values stacked so far
(a `defaultdict(list)` in the source). -/
abbrev ColDict := List (String × List Val)

/-- A per-row record: each key holds one captured value (a `match.groupdict()`). -/
abbrev ScalDict := List (String × Val)

/-- Modelled from the spec: `utility.stack_dict` (§4.2 `stack`): for each
name/value pair of a match's groupdict, append the value to the same-named
growable column, creating the column on first use. -/
def stackDict (d : ColDict) : ScalDict → ColDict
  | [] => d
  | (k, v) :: rest => stackDict (alSet d k ((alGet d k).getD [] ++ [v])) rest

/-- Python `d.update(gd)` on a row record. -/
def dictUpdate (d : ScalDict) : ScalDict → ScalDict
  | [] => d
  | (k, v) :: rest => dictUpdate (alSet d k v) rest

/-- The two target types the source's type-fixing tables use. -/
inductive CTy where
  | toFloat
  | toInt
deriving DecidableEq, Repr

/-- Modelled from the spec: the element conversion performed by
`utility.to_type` / `utility.fix_data_types` (§4.2 `coerce`): numeric text is
converted to the declared numeric type, already-typed values pass through
(coercion is idempotent), an explicit absent value is left absent, and
unexpected text fails with a type-conversion error. -/
def coerceVal : CTy → Val → Except PErr Val
  | .toFloat, .str q => .ok (.flt q)
  | .toFloat, .flt q => .ok (.flt q)
  | .toFloat, .intv n => .ok (.flt n)
  | .toFloat, .nil => .ok .nil
  | .toFloat, .txt _ => .error .valueError
  | .toInt, .str q => if q.den = 1 then .ok (.intv q.num) else .error .valueError
  | .toInt, .flt q => .ok (.intv q.floor)
  | .toInt, .intv n => .ok (.intv n)
  | .toInt, .nil => .ok .nil
  | .toInt, .txt _ => .error .valueError

/-- Modelled from the spec: `utility.fix_data_types` on a columnar accumulator:
for each listed field that is present, convert every element of its column. -/
def fixTypesCols : ColDict → List (String × CTy) → Except PErr ColDict
  | d, [] => .ok d
  | d, (k, ty) :: rest =>
    match alGet d k with
    | Option.none => fixTypesCols d rest
    | Option.some vs => do
        let vs' ← vs.mapM (coerceVal ty)
        fixTypesCols (alSet d k vs') rest

/-- Modelled from the spec: `utility.fix_data_types` on a row record: for each
listed field that is present, convert its (scalar) value. -/
def fixTypesScalar : ScalDict → List (String × CTy) → Except PErr ScalDict
  | d, [] => .ok d
  | d, (k, ty) :: rest =>
    match alGet d k with
    | Option.none => fixTypesScalar d rest
    | Option.some v => do
        let v' ← coerceVal ty v
        fixTypesScalar (alSet d k v') rest

/-- Modelled from the spec: `utility.add_aliases` (§4.2 `alias`): duplicate each
listed key under its new name, and with `rep` delete the old name. -/
def addAliases (d : ScalDict) : List (String × String) → Bool → ScalDict
  | [], _ => d
  | (old, new) :: rest, rep =>
    match alGet d old with
    | Option.none => addAliases d rest rep
    | Option.some v =>
        addAliases (if rep then alDel (alSet d new v) old else alSet d new v) rest rep

/-- One physical line of the log, classified by which of the source's regular
expressions it matches, carrying the captured groups (see the module comment).
`otherLine` is any line matching none of the modelled patterns. -/
inductive Line where
  | runStarted
  | finalEnergy (nums : List Rat)
  | solvationLine (nums : List Rat)
  | stressBanner
  | stressX (nums : List Rat)
  | stressY (nums : List Rat)
  | stressZ (nums : List Rat)
  | starLine
  | phononHeader (qn : Rat) (qpt : List Rat) (weight : Rat)
  | phononMode (n : Rat) (freq : Rat) (irrep : Option String) (intensity : Option Rat)
      (active : Option String) (ramanInt : Option Rat) (ramanAct : Option String)
  | phononDecor
  | ramanBanner
  | modeNumberLine (n : Rat)
  | numRow (nums : List Rat)
  | plusSep
  | blankLine
  | bornBanner
  | bornHeader (sp : String) (idx : Rat) (charges : List Rat)
  | eqLine
  | mullBanner
  | mullRow (sp : String) (idx : Rat) (spinSep : Bool) (s p d f total charge : Rat)
      (spin : Option Rat)
  | mullDnRow (idx : Rat) (s p d f total : Rat)
  | magresRow0 (sp : String) (idx : Rat) (iso aniso : Rat) (asym : Option Rat)
  | otherLine
deriving DecidableEq, Repr

/-- Modelled from the spec: `utility.get_numbers` — all numeric tokens of the
line, in order.  (For `phononHeader` the captured groups are listed; for lines
such as banners every token is non-numeric.) -/
def getNums : Line → List Rat
  | .finalEnergy ns => ns
  | .solvationLine ns => ns
  | .stressX ns => ns
  | .stressY ns => ns
  | .stressZ ns => ns
  | .phononHeader qn qpt w => qn :: qpt ++ [w]
  | .phononMode n f _ it _ ri _ => [n, f] ++ it.toList ++ ri.toList
  | .modeNumberLine n => [n]
  | .numRow ns => ns
  | .bornHeader _ idx cs => idx :: cs
  | .mullRow _ idx _ s p d f t c spn => [idx, s, p, d, f, t, c] ++ spn.toList
  | .mullDnRow idx s p d f t => [idx, s, p, d, f, t]
  | .magresRow0 _ idx iso an asym => [idx, iso, an] ++ asym.toList
  | _ => []

/-- Python `line.split()` followed by `to_type(…, float)`: succeeds only when
every whitespace-separated word of the line is numeric.  Of the modelled lines
only a bare numeric row (and the empty split of a blank line) qualifies; every
other modelled line contains a non-numeric word. -/
def splitFloats : Line → Except PErr (List Rat)
  | .numRow ns => .ok ns
  | .blankLine => .ok []
  | _ => .error .valueError

/-- Terminator test for the stress/forces blocks (`r"^ \*+$"`). -/
def isStarLine : Line → Bool
  | .starLine => true
  | _ => false

/-- Terminator test for a blank line (`r"^\s+$"`, the Raman block end). -/
def isBlankLine : Line → Bool
  | .blankLine => true
  | _ => false

/-- Terminator test for a row of equals signs (`r"^ =+$"` / `r"=+$"`, the
Born-charges and Mulliken block ends). -/
def isEqLine : Line → Bool
  | .eqLine => true
  | _ => false

/-- Scan for the `cnt`-th line matching `isEnd`; on success return the lines
before it (intermediate terminator matches included) and the lines after it. -/
def findEnd (isEnd : Line → Bool) : Nat → List Line → Option (List Line × List Line)
  | _, [] => Option.none
  | cnt, l :: ls =>
    if isEnd l then
      if cnt ≤ 1 then Option.some ([], ls)
      else
        match findEnd isEnd (cnt - 1) ls with
        | Option.none => Option.none
        | Option.some (b, r) => Option.some (l :: b, r)
    else
      match findEnd isEnd cnt ls with
      | Option.none => Option.none
      | Option.some (b, r) => Option.some (l :: b, r)

/-- Modelled from the spec: `utility.get_block` (§4.1 Block Extractor), called
once the start pattern has already matched the current line `l`.  It consumes
lines from the shared cursor through the `cnt`-th terminator match, returns the
captured region (the start line included — the Raman handler skips it again
with `splitlines()[1:]` — and the final terminator excluded), and leaves the
cursor just past the terminator.  If the terminator never appears the extractor
signals an end-of-input failure and no partial block is returned.  The spec
leaves the `cnt` parameter's exact semantics open (§9); it is modelled as the
number of end-pattern matches consumed, which is what the Mulliken and
thermodynamics call sites require on real logs. -/
def getBlock (isEnd : Line → Bool) (cnt : Nat) (l : Line) (rest : List Line) :
    Except PErr (List Line × List Line) :=
  match findEnd isEnd cnt rest with
  | Option.none => .error .unterminated
  | Option.some (body, rem) => .ok (l :: body, rem)

/-- The Born-charges accumulator: one growing mapping from (species, index) to a
3×3 tensor per Born block. -/
abbrev BornAcc := List ((String × Rat) × List (List Rat))

/-- One Raman mode record: the keys the handler adds to `curr_mode`, in order
(`tensor` and `depolarisation` at creation, `trace` and `II` on each closing
delimiter). -/
structure RamanMode where
  tensor : List (List Rat)
  depol : Option Rat
  trace : Option Rat
  invII : Option Rat
deriving DecidableEq, Repr

/-- One live run accumulator (`curr_run`).  `isDefaultd` records whether it is a
`defaultdict(list)` (true after a run-start marker) or the initial plain `{}`
(where appending to a missing key raises KeyError); `hasSpecies` records the
presence of the `species_properties` key, which is installed at every run start.
Only the fields the modelled handlers touch are carried; `Option.none` means the
key is absent. -/
structure Run where
  isDefaultd : Bool
  hasSpecies : Bool
  energies : Option (List Val)
  solvationEnergies : Option (List Val)
  stress : Option (List Val)
  phonons : Option (List ColDict)
  raman : Option (List (List RamanMode))
  born : Option (List BornAcc)
  mullPopn : Option (List ScalDict)
deriving DecidableEq, Repr

/-- The initial `curr_run = {}` (a plain dict with no keys). -/
def initRun : Run :=
  ⟨false, false, Option.none, Option.none, Option.none, Option.none, Option.none,
   Option.none, Option.none⟩

/-- The accumulator installed at a run-start marker: `defaultdict(list)` with
`species_properties` immediately populated. -/
def freshRun : Run :=
  ⟨true, true, Option.none, Option.none, Option.none, Option.none, Option.none,
   Option.none, Option.none⟩

/-- Python truthiness of `curr_run`: it is truthy iff it holds at least one key. -/
def runTruthy (r : Run) : Bool :=
  r.hasSpecies || r.energies.isSome || r.solvationEnergies.isSome || r.stress.isSome ||
  r.phonons.isSome || r.raman.isSome || r.born.isSome || r.mullPopn.isSome

/-- Append to a `defaultdict(list)`-style field: a present key grows, a missing
key is auto-created when the dict is a defaultdict and raises KeyError when it
is the initial plain dict. -/
def appendOpt {α : Type} (isDef : Bool) (key : String) (fld : Option (List α)) (x : α) :
    Except PErr (Option (List α)) :=
  match fld with
  | Option.some xs => .ok (Option.some (xs ++ [x]))
  | Option.none => if isDef then .ok (Option.some [x]) else .error (.keyError key)

/-- Contribution of one stress-block body line (source lines 283-290): a line
tagged `"*  x"` contributes `numbers[0:]`, `"*  y"` contributes `numbers[1:]`,
`"*  z"` contributes `numbers[2:]`, any other line contributes nothing. -/
def stressContrib : Line → List Rat
  | .stressX ns => ns
  | .stressY ns => ns.drop 1
  | .stressZ ns => ns.drop 2
  | _ => []

/-- The stress handler's accumulator over the extracted block. -/
def stressAccum : List Line → List Rat
  | [] => []
  | l :: ls => stressContrib l ++ stressAccum ls

/-- The fresh phonon q-point accumulator: `qdata = defaultdict(list)` with
`qdata["qpt"]` set to the split (string) components of the captured q-point. -/
def freshQdata (qpt : List Rat) : ColDict :=
  [("qpt", qpt.map Val.str)]

/-- Lift an optional numeric capture to a `Val` (unmatched → `None`). -/
def optStr : Option Rat → Val
  | Option.some q => .str q
  | Option.none => .nil

/-- Lift an optional textual capture to a `Val` (unmatched → `None`). -/
def optTxt : Option String → Val
  | Option.some s => .txt s
  | Option.none => .nil

/-- The groupdict of `PROCESS_PHONON_RE` for one per-mode line. -/
def phModeGd (n : Rat) (freq : Rat) (irrep : Option String) (intensity : Option Rat)
    (active : Option String) (ramanInt : Option Rat) (ramanAct : Option String) : ScalDict :=
  [("N", .str n), ("frequency", .str freq), ("irrep", optTxt irrep),
   ("intensity", optStr intensity), ("active", optTxt active),
   ("raman_intensity", optStr ramanInt), ("raman_active", optTxt ramanAct)]

/-- `process_qdata` (source lines 23-35): drop every column with no truthy entry
except `qpt`, then fix the listed field types. -/
def processQdata (q : ColDict) : Except PErr ColDict :=
  fixTypesCols (q.filter (fun kv => kv.2.any valTruthy || kv.1 == "qpt"))
    [("qpt", .toFloat), ("N", .toInt), ("frequency", .toFloat),
     ("intensity", .toFloat), ("raman_intensity", .toFloat)]

/-- Finalize one q-point accumulator (source lines 305-307 and 332-334):
`if qdata["qpt"] and qdata["qpt"] not in (phonon["qpt"] for phonon in
curr_run["phonons"]): curr_run["phonons"].append(process_qdata(qdata))`.
The membership test compares the raw captured strings of `qdata["qpt"]` with
the already-stored `phonon["qpt"]` lists, which `process_qdata` has converted
to floats.  Iterating the generator reads `curr_run["phonons"]`, which
auto-creates the key on a defaultdict and raises KeyError on the initial plain
dict; when `qdata["qpt"]` is falsy the `and` short-circuits and no read
happens. -/
def phononStore (isDef : Bool) (phonons : Option (List ColDict)) (qdata : ColDict) :
    Except PErr (Option (List ColDict)) :=
  let qpt := (alGet qdata "qpt").getD []
  if qpt.isEmpty then .ok phonons
  else do
    let lst ← match phonons with
      | Option.some l => Except.ok l
      | Option.none =>
          if isDef then Except.ok ([] : List ColDict)
          else Except.error (.keyError "phonons")
    if qpt ∈ lst.map (fun ph => (alGet ph "qpt").getD []) then
      .ok (Option.some lst)
    else do
      let pq ← processQdata qdata
      .ok (Option.some (lst ++ [pq]))

/-- The phonon handler's look-ahead loop (source lines 303-330): the handler
owns the cursor and reads lines itself.  A new q-point header finalizes the
pending accumulator and starts a fresh one; decorative lines (`Effective
cut-off`, `q->0 along`, divider rows) and any other `+ … +` continuation line
are skipped; a per-mode line is stacked; any other line terminates the phonon
region (that line is consumed and lost).  Reaching end of input exits the
`while` loop by falsiness and runs its `else:` clause, which raises — the
source writes `raise IOError(f"Unexpected end of file in {seedname}")`, and
since `seedname` is not defined anywhere in the module, Python in fact raises a
NameError while building the message; either way the parse aborts at this
point with no result. -/
def phononScan (isDef : Bool) : List Line → ColDict → Option (List ColDict) →
    Except PErr (Option (List ColDict) × List Line)
  | [], _, _ => .error .unexpectedEof
  | l :: ls, qdata, phonons =>
    match l with
    | .phononHeader _ qpt _ => do
        let ph' ← phononStore isDef phonons qdata
        phononScan isDef ls (freshQdata qpt) ph'
    | .phononDecor => phononScan isDef ls qdata phonons
    | .phononMode n f ir it ac ri ra =>
        phononScan isDef ls (stackDict qdata (phModeGd n f ir it ac ri ra)) phonons
    | .plusSep => phononScan isDef ls qdata phonons
    | _ => do
        let ph' ← phononStore isDef phonons qdata
        .ok (ph', ls)

/-- Element `t[i][j]` of a stored tensor; a missing row or entry is Python's
IndexError. -/
def tget (t : List (List Rat)) (i j : Nat) : Except PErr Rat :=
  match t.get? i with
  | Option.none => .error .indexError
  | Option.some row =>
    match row.get? j with
    | Option.none => .error .indexError
    | Option.some v => .ok v

/-- The two invariants computed on the closing delimiter of a Raman 3×3 block
(source lines 358-366): the trace `Σ tensor[i][i]` and
`II = t00·t11 + t00·t22 + t11·t22 − t01·t10 − t02·t20 − t12·t21`. -/
def ramanTraceII (t : List (List Rat)) : Except PErr (Rat × Rat) := do
  let t00 ← tget t 0 0
  let t11 ← tget t 1 1
  let t22 ← tget t 2 2
  let t01 ← tget t 0 1
  let t10 ← tget t 1 0
  let t02 ← tget t 0 2
  let t20 ← tget t 2 0
  let t12 ← tget t 1 2
  let t21 ← tget t 2 1
  .ok (t00 + t11 + t22,
       t00 * t11 + t00 * t22 + t11 * t22 - t01 * t10 - t02 * t20 - t12 * t21)

/-- Close out the current mode at a group boundary (`if curr_mode:
modes.append(curr_mode)`). -/
def pushMode (curr : Option RamanMode) (modes : List RamanMode) : List RamanMode :=
  match curr with
  | Option.some m => modes ++ [m]
  | Option.none => modes

/-- The Raman handler's walk over the extracted block body (source lines
345-368): a `Mode number` line starts a new mode group (pushing the previous
one); a line with numeric tokens appends `numbers[0:3]` as a tensor row — on
the initial empty `curr_mode = {}` this is a KeyError — and a fourth number
sets the depolarisation; the `+ … +` closing delimiter of a 3×3 block computes
the two invariants; anything else is skipped. -/
def ramanScan : List Line → Option RamanMode → List RamanMode →
    Except PErr (List RamanMode)
  | [], curr, modes => .ok (pushMode curr modes)
  | l :: ls, curr, modes =>
    match l with
    | .modeNumberLine _ =>
        ramanScan ls (Option.some ⟨[], Option.none, Option.none, Option.none⟩)
          (pushMode curr modes)
    | _ =>
      match getNums l with
      | [] =>
        match l with
        | .plusSep =>
          match curr with
          | Option.none => .error (.keyError "tensor")
          | Option.some m => do
              let (tr, ii) ← ramanTraceII m.tensor
              ramanScan ls
                (Option.some { m with trace := Option.some tr, invII := Option.some ii })
                modes
        | _ => ramanScan ls curr modes
      | ns =>
        match curr with
        | Option.none => .error (.keyError "tensor")
        | Option.some m =>
            let m := { m with tensor := m.tensor ++ [ns.take 3] }
            let m := if ns.length == 4 then { m with depol := ns.get? 3 } else m
            ramanScan ls (Option.some m) modes

/-- The Born-charges body loop (source lines 380-389): at a line matching
`BORN_RE` store `[charges, to_type(lines[i+1].split(), float),
to_type(lines[i+2].split(), float)]` under the (species, index) key and advance
by 3 lines, counting one `curr_run["born"].append(born_accum)` per matched
atom; any other line advances by 1.  Running past the end of the extracted
block while reading the two continuation rows is Python's IndexError (the
first continuation row is converted before the second is indexed). -/
def bornLoop : List Line → BornAcc → Nat → Except PErr (BornAcc × Nat)
  | [], acc, cnt => .ok (acc, cnt)
  | l :: ls, acc, cnt =>
    match l with
    | .bornHeader sp idx charges =>
      match ls with
      | r1 :: r2 :: ls' => do
          let row2 ← splitFloats r1
          let row3 ← splitFloats r2
          bornLoop ls' (alSet acc (sp, idx) [charges, row2, row3]) (cnt + 1)
      | [r1] => do
          let _ ← splitFloats r1
          .error .indexError
      | [] => .error .indexError
    | _ => bornLoop ls acc cnt

/-- Extend the `born` sequence by the block's appends.  In the source every
append pushes a reference to the one `born_accum` dict of the block, which the
loop keeps mutating; after the block completes all `cnt` appended entries alias
the final accumulator, so the observable extension is `cnt` copies of it.
With zero appends the `born` key is not created. -/
def appendBorn (isDef : Bool) (fld : Option (List BornAcc)) (acc : BornAcc) (cnt : Nat) :
    Except PErr (Option (List BornAcc)) :=
  if cnt = 0 then .ok fld
  else
    match fld with
    | Option.some xs => .ok (Option.some (xs ++ List.replicate cnt acc))
    | Option.none =>
        if isDef then .ok (Option.some (List.replicate cnt acc))
        else .error (.keyError "born")

/-- The shell labels (`utility.SHELLS`). -/
def shellNames : List String := ["s", "p", "d", "f"]

/-- The groupdict of `CASTEP_POPN_RE` for one population row (an unmatched
optional group is `None`). -/
def mullGd (sp : String) (idx : Rat) (spinSep : Bool) (s p d f total charge : Rat)
    (spin : Option Rat) : ScalDict :=
  [("spec", .txt sp), ("index", .str idx),
   ("spin_sep", if spinSep then .txt "up:" else .nil),
   ("s", .str s), ("p", .str p), ("d", .str d), ("f", .str f),
   ("total", .str total), ("charge", .str charge), ("spin", optStr spin)]

/-- The groupdict of `CASTEP_POPN_RE_DN` for a down-spin continuation row (its
leading integer is not a named group). -/
def dnGd (s p d f total : Rat) : ScalDict :=
  [("s", .str s), ("p", .str p), ("d", .str d), ("f", .str f), ("total", .str total)]

/-- The type-fixing table of the Mulliken handler (source lines 456-460). -/
def mullFixTable : List (String × CTy) :=
  ("index", CTy.toInt) ::
    (shellNames ++ ["total", "charge", "spin"]).map (fun o => (o, CTy.toFloat)) ++
    (shellNames ++ ["total"]).map (fun o => ("up_" ++ o, CTy.toFloat)) ++
    (shellNames ++ ["total"]).map (fun o => ("dn_" ++ o, CTy.toFloat))

/-- Python dict lookup `d[k]`: KeyError when the key is absent. -/
def dGet (d : ScalDict) (k : String) : Except PErr Val :=
  match alGet d k with
  | Option.some v => .ok v
  | Option.none => .error (.keyError k)

/-- The Mulliken handler's walk (source lines 445-461) over the extracted block,
threading the file cursor `rem`, which `get_block` has already advanced past
the block terminator.  A row matching `CASTEP_POPN_RE` builds its record; a row
flagged `up:` first renames its shell/total fields with the `up_` prefix, then
reads the next line directly from the file cursor — i.e. the first line after
the block terminator, not the `dn:` row inside the block — matches it against
`CASTEP_POPN_RE_DN` (a non-matching line gives `None`, and `.groupdict()` on it
is an AttributeError), merges the groupdict (its keys are the unprefixed shell
names), and recomputes `total = float(mull["up_total"]) + float(mull["dn_total"])`;
finally the record's types are fixed and it is appended to `mull_popn`. -/
def mullScan (isDef : Bool) :
    List Line → List Line → Option (List ScalDict) →
    Except PErr (Option (List ScalDict) × List Line)
  | [], rem, mp => .ok (mp, rem)
  | l :: ls, rem, mp =>
    match l with
    | .mullRow sp idx ss s p d f tot chg spn => do
        let mull := mullGd sp idx ss s p d f tot chg spn
        let (mull, rem) ←
          if ss then
            let mull := addAliases mull
              ((shellNames ++ ["total"]).map (fun o => (o, "up_" ++ o))) true
            match rem with
            | [] => Except.error PErr.attributeError
            | l2 :: rem' =>
              match l2 with
              | .mullDnRow _ s2 p2 d2 f2 t2 => do
                  let mull := dictUpdate mull (dnGd s2 p2 d2 f2 t2)
                  let upT ← pyFloat (← dGet mull "up_total")
                  let dnT ← pyFloat (← dGet mull "dn_total")
                  Except.ok (alSet mull "total" (Val.flt (upT + dnT)), rem')
              | _ => Except.error PErr.attributeError
          else Except.ok (mull, rem)
        let mull ← fixTypesScalar mull mullFixTable
        let mp' ← appendOpt isDef "mull_popn" mp mull
        mullScan isDef ls rem mp'
    | _ => mullScan isDef ls rem mp

/-- The coercion of one asymmetry entry (source line 55):
`float(dat) if dat != "N/A" else None`. -/
def asymCoerce (v : Val) : Except PErr Val :=
  if v = Val.txt "N/A" then .ok Val.nil
  else do
    let q ← pyFloat v
    .ok (Val.flt q)

/-- The MagRes row grammars: does this line match `MAGRES_RE[task]`, and with
which groupdict?  Only task 0 (the Chemical Shielding Tensor grammar, the one
the claims exercise) is populated; an `asym` capture of the literal sentinel
text `N/A` is carried as `Option.none` in the token. -/
def magresMatch : Int → Line → Option ScalDict
  | 0, .magresRow0 sp idx iso aniso asym =>
      Option.some
        [("spec", .txt sp), ("index", .str idx), ("iso", .str iso),
         ("aniso", .str aniso),
         ("asym", match asym with
                  | Option.some q => Val.str q
                  | Option.none => Val.txt "N/A")]
  | _, _ => Option.none

/-- The result of `parse_magres_block`: the returned dict holds the scalar
`task` discriminant plus the stacked columnar fields. -/
structure MagresOut where
  task : Int
  fields : ColDict
deriving DecidableEq, Repr

/-- `parse_magres_block` (source lines 38-57): stack every line matching the
task's grammar, fix the listed field types (the dict is always truthy since it
holds `task`), then map the `asym` column through the `N/A`-to-`None`
coercion. -/
def parseMagresBlock (task : Int) (inp : List Line) : Except PErr MagresOut := do
  let data := inp.foldl
    (fun d l =>
      match magresMatch task l with
      | Option.some gd => stackDict d gd
      | Option.none => d) []
  let data ← fixTypesCols data
    [("index", .toInt), ("iso", .toFloat), ("aniso", .toFloat),
     ("cq", .toFloat), ("eta", .toFloat)]
  let data ←
    match alGet data "asym" with
    | Option.none => pure data
    | Option.some vs => do
        let vs' ← vs.mapM asymCoerce
        pure (alSet data "asym" vs')
  .ok ⟨task, data⟩

/-- The dispatch-loop state: the sealed result sequence and the live run. -/
structure PState where
  runs : List Run
  curr : Run
deriving DecidableEq, Repr

/-- The whole-run type-coercion pass applied at input exhaustion (source lines
742-744): `fix_data_types(curr_run, {"energies": float, "solvation": float})`.
The table's second key is `"solvation"`, a key no handler ever creates (the
solvation handler writes `"solvation_energies"`), so only the `energies` field
is affected. -/
def fixRunTypes (r : Run) : Except PErr Run := do
  let en ←
    match r.energies with
    | Option.none => pure (Option.none : Option (List Val))
    | Option.some vs => do
        let vs' ← vs.mapM (coerceVal .toFloat)
        pure (Option.some vs')
  pure { r with energies := en }

/-- Process one line of the log: the source's first-match-wins `elif` chain
(source lines 138-461), restricted to the modelled handlers; the omitted
handlers' banners match none of the modelled lines.  Returns the new state and
the remaining input (handlers that own the cursor may have consumed further
lines). -/
def step (l : Line) (ls : List Line) (st : PState) : Except PErr (PState × List Line) :=
  match l with
  | .runStarted =>
      let runs := if runTruthy st.curr then st.runs ++ [st.curr] else st.runs
      .ok (⟨runs, freshRun⟩, ls)
  | .finalEnergy ns =>
      match ns.getLast? with
      | Option.none => .error .indexError
      | Option.some x => do
          let en ← appendOpt st.curr.isDefaultd "energies" st.curr.energies (Val.flt x)
          .ok (⟨st.runs, { st.curr with energies := en }⟩, ls)
  | .solvationLine ns =>
      match ns with
      | [x] => do
          let sv ← appendOpt st.curr.isDefaultd "solvation_energies"
            st.curr.solvationEnergies (Val.flt x)
          .ok (⟨st.runs, { st.curr with solvationEnergies := sv }⟩, ls)
      | _ => .error .typeError
  | .stressBanner => do
      let (block, rem) ← getBlock isStarLine 1 l ls
      .ok (⟨st.runs, { st.curr with
              stress := Option.some ((stressAccum block).map Val.flt) }⟩, rem)
  | .phononHeader _ qpt _ => do
      let (ph, rem) ← phononScan st.curr.isDefaultd ls (freshQdata qpt) st.curr.phonons
      .ok (⟨st.runs, { st.curr with phonons := ph }⟩, rem)
  | .ramanBanner => do
      let (block, rem) ← getBlock isBlankLine 1 l ls
      let modes ← ramanScan (block.drop 1) Option.none []
      let rm ← appendOpt st.curr.isDefaultd "raman" st.curr.raman modes
      .ok (⟨st.runs, { st.curr with raman := rm }⟩, rem)
  | .bornBanner => do
      let (block, rem) ← getBlock isEqLine 1 l ls
      let (acc, cnt) ← bornLoop block [] 0
      let bn ← appendBorn st.curr.isDefaultd st.curr.born acc cnt
      .ok (⟨st.runs, { st.curr with born := bn }⟩, rem)
  | .mullBanner => do
      let (block, rem) ← getBlock isEqLine 2 l ls
      let (mp, rem') ← mullScan st.curr.isDefaultd block rem st.curr.mullPopn
      .ok (⟨st.runs, { st.curr with mullPopn := mp }⟩, rem')
  | _ => .ok (st, ls)

/-- Seal the pending run at input exhaustion (source lines 742-745): a truthy
`curr_run` undergoes the whole-run coercion pass and is appended. -/
def eofSeal (st : PState) : Except PErr (List Run) :=
  if runTruthy st.curr then do
    let r ← fixRunTypes st.curr
    .ok (st.runs ++ [r])
  else .ok st.runs

/-- The run dispatch loop.  The fuel argument only bounds the recursion depth
so the definition is structural; since every `step` consumes at least the
current line, `parseCastepFile` supplies fuel that can never run out. -/
def mainLoop : Nat → PState → List Line → Except PErr (List Run)
  | _, st, [] => eofSeal st
  | 0, _, _ :: _ => .error .noFuel
  | fuel + 1, st, l :: ls => do
      let (st', rest) ← step l ls st
      mainLoop fuel st' rest

/-- `parse_castep_file` (source lines 133-746): walk the log line by line,
dispatching each line through the handler chain, and return the sealed
sequence of run records. -/
def parseCastepFile (ls : List Line) : Except PErr (List Run) :=
  mainLoop (ls.length + 1) ⟨[], initRun⟩ ls

/-- The number of `Run started` markers in the input. -/
def countRunStarted : List Line → Nat
  | [] => 0
  | .runStarted :: ls => countRunStarted ls + 1
  | _ :: ls => countRunStarted ls

/-- Is the value a (coerced) float? -/
def valIsFlt : Val → Bool
  | .flt _ => true
  | _ => false

/-- Both `energies` and `solvation_energies` hold only float values (an absent
key counts as trivially coerced). -/
def runCoerced (r : Run) : Bool :=
  (r.energies.getD []).all valIsFlt && (r.solvationEnergies.getD []).all valIsFlt

/-- The live accumulator of a started run: a `defaultdict` with
`species_properties` installed, whose energy accumulators hold only floats. -/
def started (r : Run) : Bool :=
  r.isDefaultd && r.hasSpecies && runCoerced r

/-- Does this line match the run-start marker or one of the modelled handlers'
banner patterns in the source's dispatch chain? -/
def triggersHandler : Line → Bool
  | .runStarted => true
  | .finalEnergy _ => true
  | .solvationLine _ => true
  | .stressBanner => true
  | .phononHeader _ _ _ => true
  | .ramanBanner => true
  | .bornBanner => true
  | .mullBanner => true
  | _ => false

/-- Lines the phonon look-ahead loop consumes and stays in (a new q-point
header, a per-mode line, a decorative line, or a `+ … +` continuation). -/
def phononLoopLine : Line → Bool
  | .phononHeader _ _ _ => true
  | .phononMode _ _ _ _ _ _ _ => true
  | .phononDecor => true
  | .plusSep => true
  | _ => false

/-- Lines the phonon look-ahead consumes without ever finalizing a q-point
(everything it stays in except a new q-point header). -/
def phononInnerLine : Line → Bool
  | .phononMode _ _ _ _ _ _ _ => true
  | .phononDecor => true
  | .plusSep => true
  | _ => false

/-- Well-formedness of a phonon loop line: the `N` capture of a per-mode line
comes from `r"\d+"` and therefore denotes an integer. -/
def phononLineOk : Line → Bool
  | .phononMode n _ _ _ _ _ _ => n.den == 1
  | _ => true

/-- The element condition under which `coerceVal ty` succeeds. -/
def tyOkFor : CTy → Val → Bool
  | .toFloat, .txt _ => false
  | .toFloat, _ => true
  | .toInt, .str q => q.den == 1
  | .toInt, .txt _ => false
  | .toInt, _ => true

/-- Per-column well-formedness of a phonon q-point accumulator: the columns the
`process_qdata` type table touches hold coercible values. -/
def colOk : String × List Val → Bool
  | (k, vs) =>
    if k = "N" then vs.all (tyOkFor .toInt)
    else if k = "qpt" || k = "frequency" || k = "intensity" || k = "raman_intensity" then
      vs.all (tyOkFor .toFloat)
    else true

/-- Well-formedness of a phonon q-point accumulator. -/
def qdataOk (q : ColDict) : Bool := q.all colOk

/-- Well-formedness of one stacked groupdict entry: appending its value keeps
the column coercible. -/
def gdEntryOk : String × Val → Bool
  | (k, v) =>
    if k = "N" then tyOkFor .toInt v
    else if k = "qpt" || k = "frequency" || k = "intensity" || k = "raman_intensity" then
      tyOkFor .toFloat v
    else true

/-- Lines the Born body loop may skip inside a well-formed block (anything that
is neither an atom header — those advance in strides of 3 — nor a block
terminator nor a run-start marker). -/
def bornSkippable : Line → Bool
  | .bornHeader _ _ _ => false
  | .eqLine => false
  | .runStarted => false
  | _ => true

/-- A well-formed Born block body: a mix of skippable lines and complete
3-line atom strides. -/
inductive BornBody : List Line → Prop where
  | nil : BornBody []
  | skip (l : Line) (ls : List Line) :
      bornSkippable l = true → BornBody ls → BornBody (l :: ls)
  | stride (sp : String) (idx : Rat) (cs r1 r2 : List Rat) (ls : List Line) :
      BornBody ls → BornBody (.bornHeader sp idx cs :: .numRow r1 :: .numRow r2 :: ls)

/-- One complete, well-formed region that a single dispatch of the main loop
consumes without error, without crossing a run-start marker, and while
stating inside the current run. -/
inductive Chunk : List Line → Prop where
  | skip (l : Line) :
      triggersHandler l = false → Chunk [l]
  | energy (ns : List Rat) :
      ns ≠ [] → Chunk [.finalEnergy ns]
  | solv (x : Rat) : Chunk [.solvationLine [x]]
  | stressC (body : List Line) :
      body.all (fun l => !isStarLine l && !(l == Line.runStarted)) = true →
      Chunk (.stressBanner :: body ++ [.starLine])
  | phononC (qn : Rat) (qpt : List Rat) (w : Rat) (inner : List Line) (brk : Line) :
      inner.all (fun l => phononLoopLine l && phononLineOk l) = true →
      phononLoopLine brk = false → brk ≠ .runStarted →
      Chunk (.phononHeader qn qpt w :: inner ++ [brk])
  | ramanC (k a b c d e f g h i : Rat) :
      Chunk [.ramanBanner, .modeNumberLine k, .numRow [a, b, c], .numRow [d, e, f],
             .numRow [g, h, i], .plusSep, .blankLine]
  | bornC (body : List Line) :
      BornBody body → Chunk (.bornBanner :: body ++ [.eqLine])

/-- A concatenation of complete chunks. -/
inductive ChunkSeq : List Line → Prop where
  | nil : ChunkSeq []
  | cons (c body : List Line) : Chunk c → ChunkSeq body → ChunkSeq (c ++ body)

/-- A prefix of lines none of which the dispatch chain reacts to. -/
inductive SkipSeq : List Line → Prop where
  | nil : SkipSeq []
  | cons (l : Line) (ls : List Line) :
      triggersHandler l = false → SkipSeq ls → SkipSeq (l :: ls)

/-- A well-formed sequence of runs: each run-start marker followed by a
concatenation of complete chunks. -/
inductive WFRuns : List Line → Prop where
  | nil : WFRuns []
  | run (body rest : List Line) : ChunkSeq body → WFRuns rest →
      WFRuns (.runStarted :: body ++ rest)

/-- The q-point vectors of a run's stored phonon records. -/
def phononQpts (r : Run) : List (List Val) :=
  (r.phonons.getD []).map (fun q => (alGet q "qpt").getD [])

/-- C1 counterexample input: a stress block (the handler assigns, so a plain
dict accepts it) before the only run-start marker. -/
def exC1 : List Line :=
  [.stressBanner, .stressX [1, 2, 3], .stressY [4, 5, 6], .stressZ [7, 8, 9],
   .starLine, .runStarted]

/-- The pre-marker record `exC1` produces. -/
def rC1a : Run :=
  { initRun with stress := Option.some ([1, 2, 3, 5, 6, 9].map Val.flt) }

/-- C2 failing input: the same q-point header twice inside one phonon region. -/
def exC2 : List Line :=
  [.runStarted, .phononHeader 1 [0, 0, 0] 1, .phononHeader 2 [0, 0, 0] 1, .otherLine]

/-- The run record `exC2` produces: the identical q-point is stored twice. -/
def rC2 : Run :=
  { freshRun with phonons := (Option.some
      [[("qpt", [Val.flt 0, Val.flt 0, Val.flt 0])],
       [("qpt", [Val.flt 0, Val.flt 0, Val.flt 0])]]) }

/-- C3 counterexample input: one run with one stress block whose x/y/z lines
carry three numbers each. -/
def exC3 : List Line :=
  [.runStarted, .stressBanner, .stressX [1, 2, 3], .stressY [4, 5, 6],
   .stressZ [7, 8, 9], .starLine]

/-- The run record `exC3` produces. -/
def rC3 : Run :=
  { freshRun with stress := Option.some ([1, 2, 3, 5, 6, 9].map Val.flt) }

/-- C6 failing input: a Mulliken block whose single row is spin-separated and is
immediately followed by its `dn:` row, with one further `dn:`-shaped line after
the closing terminator (the best case for the handler's file-cursor read). -/
def exC6 : List Line :=
  [.runStarted, .mullBanner, .otherLine, .eqLine,
   .mullRow "Si" 1 true 1 2 0 0 3 0 Option.none, .mullDnRow 1 1 1 0 0 2, .eqLine,
   .mullDnRow 1 1 1 0 0 2]

/-- C6 failing input, variant: nothing follows the block terminator, so the
direct `readline` returns end-of-file. -/
def exC6b : List Line :=
  [.runStarted, .mullBanner, .otherLine, .eqLine,
   .mullRow "Si" 1 true 1 2 0 0 3 0 Option.none, .mullDnRow 1 1 1 0 0 2, .eqLine]

/-- C5 witness input: one run with one energy and one solvation-energy line. -/
def exC5 : List Line := [.runStarted, .finalEnergy [3], .solvationLine [4]]

/-- The run record `exC5` produces. -/
def rC5 : Run :=
  { freshRun with energies := Option.some [Val.flt 3],
                  solvationEnergies := Option.some [Val.flt 4] }

/-- C2: the claim states that no `phonons` sequence ever contains two records
with identical q-point vectors.  It fails on the code: the duplicate check
compares the raw captured string triple of the pending q-point with the
already-stored triples, which `process_qdata` has converted to floats, so the
two sides are never equal and the same q-point is stored twice.  On the input
`exC2` — one phonon region with the same q-point header twice — the parse
succeeds and the resulting run's `phonons` holds two records with the identical
q-point vector. -/
theorem claim_C2_duplicate_qpt :
    parseCastepFile exC2 = .ok [rC2] ∧
      phononQpts rC2 = [[Val.flt 0, Val.flt 0, Val.flt 0],
                        [Val.flt 0, Val.flt 0, Val.flt 0]] ∧
      ¬ (phononQpts rC2).Nodup := by
  refine ⟨rfl, rfl, ?_⟩
  decide

/-- C3 counterexample: the claim states the `stress` field is a 9-element
sequence (the full 3×3 tensor).  On `exC3`, a run with one stress block whose
x/y/z lines carry three numbers each, the handler keeps `numbers[0:]`,
`numbers[1:]` and `numbers[2:]` respectively, so `stress` has 3+2+1 = 6
elements (the upper triangle) and is never expanded to a full matrix. -/
theorem claim_C3_counterexample :
    parseCastepFile exC3 = .ok [rC3] ∧
      rC3.stress.map List.length = Option.some 6 ∧
      rC3.stress.map List.length ≠ Option.some 9 := by
  refine ⟨rfl, rfl, ?_⟩
  decide

/-- C3 as amended: after one or more stress blocks whose x/y/z body lines carry
three numeric tokens each, `stress` is the 6-element flattened upper triangle
`[xx, xy, xz, yy, yz, zz]` built from the trailing 3/2/1 tokens of the x/y/z
lines, and it equals the tensor of the most recent block — a last-write-wins
snapshot, not an accumulated history. -/
theorem claim_C3_amended (x1 x2 x3 y1 y2 y3 z1 z2 z3 u1 u2 u3 v1 v2 v3 w1 w2 w3 : Rat) :
    parseCastepFile
      [.runStarted,
       .stressBanner, .stressX [x1, x2, x3], .stressY [y1, y2, y3],
       .stressZ [z1, z2, z3], .starLine,
       .stressBanner, .stressX [u1, u2, u3], .stressY [v1, v2, v3],
       .stressZ [w1, w2, w3], .starLine] =
    .ok [{ freshRun with stress := (Option.some
            [Val.flt u1, Val.flt u2, Val.flt u3, Val.flt v2, Val.flt v3, Val.flt w3]) }] :=
  rfl

/-- C6: the claim states a spin-separated Mulliken row followed by its `dn:`
row yields a record with `up_total`, `dn_total` and `total = up_total +
dn_total`.  The code instead crashes: the `dn:` continuation is read with
`castep_file.readline()`, whose cursor `get_block` has already advanced past
the block terminator, and the matched `dn:` groupdict is merged without the
`dn_` prefix, so `mull["dn_total"]` raises KeyError (`exC6`, where a `dn:` line
happens to sit right after the block); when no matching line follows the block
the `None` match's `.groupdict()` raises AttributeError instead (`exC6b`). -/
theorem claim_C6_spin_crash :
    parseCastepFile exC6 = .error (.keyError "dn_total") ∧
      parseCastepFile exC6b = .error .attributeError :=
  ⟨rfl, rfl⟩

/-- C7: for a Raman mode whose 3×3 tensor block is closed by its delimiter,
the handler computes `trace = t00 + t11 + t22` and
`II = t00·t11 + t00·t22 + t11·t22 − t01·t10 − t02·t20 − t12·t21`; in
particular rows [1,0,0],[0,2,0],[0,0,3] give trace 6 and II 11. -/
theorem claim_C7_raman_invariants :
    (∀ a b c d e f g h i : Rat,
      parseCastepFile
        [.runStarted, .ramanBanner, .modeNumberLine 1, .numRow [a, b, c],
         .numRow [d, e, f], .numRow [g, h, i], .plusSep, .blankLine] =
      .ok [{ freshRun with raman := (Option.some
              [[⟨[[a, b, c], [d, e, f], [g, h, i]], Option.none,
                 Option.some (a + e + i),
                 Option.some (a * e + a * i + e * i - b * d - c * g - f * h)⟩]]) }]) ∧
    parseCastepFile
        [.runStarted, .ramanBanner, .modeNumberLine 1, .numRow [1, 0, 0],
         .numRow [0, 2, 0], .numRow [0, 0, 3], .plusSep, .blankLine] =
      .ok [{ freshRun with raman := (Option.some
              [[⟨[[1, 0, 0], [0, 2, 0], [0, 0, 3]], Option.none,
                 Option.some 6, Option.some 11⟩]]) }] := by
  have hgen : ∀ a b c d e f g h i : Rat,
      parseCastepFile
        [.runStarted, .ramanBanner, .modeNumberLine 1, .numRow [a, b, c],
         .numRow [d, e, f], .numRow [g, h, i], .plusSep, .blankLine] =
      .ok [{ freshRun with raman := (Option.some
              [[⟨[[a, b, c], [d, e, f], [g, h, i]], Option.none,
                 Option.some (a + e + i),
                 Option.some (a * e + a * i + e * i - b * d - c * g - f * h)⟩]]) }] :=
    fun a b c d e f g h i => rfl
  refine ⟨hgen, ?_⟩
  have h1 := hgen 1 0 0 0 2 0 0 0 3
  norm_num at h1
  exact h1

set_option maxHeartbeats 2000000 in
/-- C8: in `parse_magres_block`, an asymmetry capture holding the literal
sentinel text `N/A` is coerced to the explicit absent value `None` — not to
zero and not to a conversion error — while a numeric capture is coerced to its
float. -/
theorem claim_C8_na_absent (sp sp2 : String) (iso iso2 an an2 q : Rat) :
    parseMagresBlock 0
      [.magresRow0 sp 1 iso an (Option.some q), .magresRow0 sp2 2 iso2 an2 Option.none] =
      .ok ⟨0, [("spec", [.txt sp, .txt sp2]), ("index", [.intv 1, .intv 2]),
               ("iso", [.flt iso, .flt iso2]), ("aniso", [.flt an, .flt an2]),
               ("asym", [.flt q, Val.nil])]⟩ ∧
      Val.nil ≠ Val.flt 0 := by
  refine ⟨rfl, ?_⟩
  decide

/-- C9: a synthetic log with one Born block of two atoms (species/index header
row with the first tensor row, plus two continuation rows, per atom) yields a
final Born accumulator with exactly the two (species, index) keys, each mapped
to the 3×3 tensor of the input numbers verbatim as floats. -/
theorem claim_C9_born_roundtrip (a1 a2 a3 b1 b2 b3 c1 c2 c3
    d1 d2 d3 e1 e2 e3 f1 f2 f3 : Rat) :
    parseCastepFile
      [.runStarted, .bornBanner,
       .bornHeader "O" 1 [a1, a2, a3], .numRow [b1, b2, b3], .numRow [c1, c2, c3],
       .bornHeader "H" 2 [d1, d2, d3], .numRow [e1, e2, e3], .numRow [f1, f2, f3],
       .eqLine] =
    .ok [{ freshRun with born := (Option.some
            [[(("O", 1), [[a1, a2, a3], [b1, b2, b3], [c1, c2, c3]]),
              (("H", 2), [[d1, d2, d3], [e1, e2, e3], [f1, f2, f3]])],
             [(("O", 1), [[a1, a2, a3], [b1, b2, b3], [c1, c2, c3]]),
              (("H", 2), [[d1, d2, d3], [e1, e2, e3], [f1, f2, f3]])]]) }] :=
  rfl

/-- C10: a Born block with three atom-header lines matching the Born row
grammar extends the run's `born` sequence by three elements — one append per
matched atom, not one per block — and, because every append pushes the same
mutated accumulator object, each of the three elements equals the final
accumulator holding all three atoms' tensors. -/
theorem claim_C10_born_aliasing (ca rb rc cd re rf cg rh ri : List Rat) :
    parseCastepFile
      [.runStarted, .bornBanner,
       .bornHeader "Ti" 1 ca, .numRow rb, .numRow rc,
       .bornHeader "O" 2 cd, .numRow re, .numRow rf,
       .bornHeader "O" 3 cg, .numRow rh, .numRow ri,
       .eqLine] =
    .ok [{ freshRun with born := (Option.some
            [[(("Ti", 1), [ca, rb, rc]), (("O", 2), [cd, re, rf]),
              (("O", 3), [cg, rh, ri])],
             [(("Ti", 1), [ca, rb, rc]), (("O", 2), [cd, re, rf]),
              (("O", 3), [cg, rh, ri])],
             [(("Ti", 1), [ca, rb, rc]), (("O", 2), [cd, re, rf]),
              (("O", 3), [cg, rh, ri])]]) }] :=
  rfl

/-- The phonon look-ahead hits end of input and aborts whenever the remaining
lines are all mode/decorative/continuation lines (no recognized exit condition
and no further q-point header). -/
theorem phononScan_inner_eof (isDef : Bool) :
    ∀ tail : List Line, tail.all phononInnerLine = true → ∀ qdata ph,
      phononScan isDef tail qdata ph = .error .unexpectedEof := by
  intro tail
  induction tail with
  | nil => intro _ qdata ph; rfl
  | cons l ls ih =>
    intro h qdata ph
    rw [List.all_cons, Bool.and_eq_true] at h
    obtain ⟨hl, hls⟩ := h
    cases l <;> simp only [phononInnerLine] at hl <;>
      first
        | exact Bool.noConfusion hl
        | simp [phononScan, ih hls]

/-- C4: an input whose phonon block is truncated by end of input mid-mode-table
— no closing unrecognized line and no further q-point header before EOF —
makes the parse abort with the fatal unterminated-block error; no partial
result sequence is returned. -/
theorem claim_C4_truncated_phonon (qn w : Rat) (qpt : List Rat) (tail : List Line)
    (h : tail.all phononInnerLine = true) :
    parseCastepFile (.runStarted :: .phononHeader qn qpt w :: tail) =
      .error .unexpectedEof := by
  have hscan := phononScan_inner_eof true tail h
  simp [parseCastepFile, mainLoop, step, runTruthy, initRun, freshRun, hscan,
    Except.bind, Bind.bind]

/-- Witness for C4 at a concrete truncated input. -/
theorem claim_C4_witness :
    parseCastepFile [.runStarted, .phononHeader 1 [0, 0, 0] 1,
      .phononMode 1 5 Option.none Option.none Option.none Option.none Option.none] =
      .error .unexpectedEof :=
  claim_C4_truncated_phonon 1 1 [0, 0, 0]
    [.phononMode 1 5 Option.none Option.none Option.none Option.none Option.none] rfl

/-- Inverting a successful `Except` bind. -/
theorem bindOk {ε α β : Type} {x : Except ε α} {f : α → Except ε β} {b : β}
    (h : x >>= f = .ok b) : ∃ a, x = .ok a ∧ f a = .ok b := by
  cases x with
  | error e => exact absurd h (by simp [Bind.bind, Except.bind])
  | ok a => exact ⟨a, rfl, by simpa [Bind.bind, Except.bind] using h⟩

/-- Coercing a list of floats to float is the identity. -/
theorem mapM_flt_id : ∀ vs : List Val, vs.all valIsFlt = true →
    vs.mapM (coerceVal CTy.toFloat) = .ok vs := by
  intro vs
  induction vs with
  | nil => intro _; rfl
  | cons v vs ih =>
    intro h
    rw [List.all_cons, Bool.and_eq_true] at h
    obtain ⟨hv, hvs⟩ := h
    cases v with
    | flt q =>
      rw [List.mapM_cons, ih hvs]
      rfl
    | str q => exact Bool.noConfusion hv
    | txt s => exact Bool.noConfusion hv
    | intv n => exact Bool.noConfusion hv
    | nil => exact Bool.noConfusion hv

/-- A run whose energy accumulators hold only floats is a fixpoint of the
whole-run coercion pass. -/
theorem fixRunTypes_coerced (r : Run) (h : runCoerced r = true) :
    fixRunTypes r = .ok r := by
  rw [runCoerced, Bool.and_eq_true] at h
  obtain ⟨he, _⟩ := h
  cases hE : r.energies with
  | none =>
    have h2 : ({ r with energies := Option.none } : Run) = r := by rw [← hE]
    simp only [fixRunTypes, hE]
    exact congrArg Except.ok h2
  | some vs =>
    rw [hE] at he
    simp only [Option.getD_some] at he
    have h2 : ({ r with energies := Option.some vs } : Run) = r := by rw [← hE]
    simp only [fixRunTypes, hE, mapM_flt_id vs he]
    exact congrArg Except.ok h2

/-- A successful append of a `p`-good element to a `p`-good accumulator stays
`p`-good. -/
theorem appendOpt_all {α : Type} {isDef : Bool} {key : String} {fld : Option (List α)}
    {x : α} {out : Option (List α)} (p : α → Bool)
    (h : appendOpt isDef key fld x = .ok out)
    (hf : (fld.getD []).all p = true) (hx : p x = true) :
    (out.getD []).all p = true := by
  cases fld with
  | some xs =>
    simp only [appendOpt, Except.ok.injEq] at h
    subst h
    simp_all
  | none =>
    by_cases hd : isDef
    · simp only [appendOpt, hd, if_true, Except.ok.injEq] at h
      subst h
      simp_all
    · simp [appendOpt, hd] at h

/-- One dispatch step preserves the coercion invariant: every sealed run and
the live run keep float-only energy accumulators. -/
theorem step_inv (l : Line) (ls : List Line) (st st' : PState) (rest : List Line)
    (hstep : step l ls st = .ok (st', rest))
    (hruns : ∀ r ∈ st.runs, runCoerced r = true) (hcurr : runCoerced st.curr = true) :
    (∀ r ∈ st'.runs, runCoerced r = true) ∧ runCoerced st'.curr = true := by
  cases l with
  | runStarted =>
    simp only [step, Except.ok.injEq, Prod.mk.injEq] at hstep
    obtain ⟨hst, -⟩ := hstep
    subst hst
    constructor
    · intro r hr
      by_cases ht : runTruthy st.curr
      · simp only [ht, if_true, List.mem_append, List.mem_singleton] at hr
        rcases hr with hr | hr
        · exact hruns r hr
        · subst hr; exact hcurr
      · simp only [ht, if_false, Bool.false_eq_true] at hr
        exact hruns r (by simpa using hr)
    · show runCoerced freshRun = true
      decide
  | finalEnergy ns =>
    simp only [step] at hstep
    cases hlast : ns.getLast? with
    | none => rw [hlast] at hstep; exact absurd hstep (by simp)
    | some x =>
      rw [hlast] at hstep
      obtain ⟨en, hen, hok⟩ := bindOk hstep
      simp only [Except.ok.injEq, Prod.mk.injEq, pure, Except.pure] at hok
      obtain ⟨hst, -⟩ := hok
      subst hst
      refine ⟨hruns, ?_⟩
      rw [runCoerced, Bool.and_eq_true] at hcurr ⊢
      obtain ⟨hc1, hc2⟩ := hcurr
      exact ⟨appendOpt_all valIsFlt hen hc1 rfl, hc2⟩
  | solvationLine ns =>
    simp only [step] at hstep
    match ns, hstep with
    | [x], hstep =>
      obtain ⟨sv, hsv, hok⟩ := bindOk hstep
      simp only [Except.ok.injEq, Prod.mk.injEq, pure, Except.pure] at hok
      obtain ⟨hst, -⟩ := hok
      subst hst
      refine ⟨hruns, ?_⟩
      rw [runCoerced, Bool.and_eq_true] at hcurr ⊢
      obtain ⟨hc1, hc2⟩ := hcurr
      exact ⟨hc1, appendOpt_all valIsFlt hsv hc2 rfl⟩
  | stressBanner =>
    simp only [step] at hstep
    obtain ⟨pr, -, hok⟩ := bindOk hstep
    obtain ⟨block, rem⟩ := pr
    simp only [Except.ok.injEq, Prod.mk.injEq, pure, Except.pure] at hok
    obtain ⟨hst, -⟩ := hok
    subst hst
    refine ⟨hruns, ?_⟩
    simpa [runCoerced] using hcurr
  | phononHeader qn qpt w =>
    simp only [step] at hstep
    obtain ⟨pr, -, hok⟩ := bindOk hstep
    obtain ⟨ph, rem⟩ := pr
    simp only [Except.ok.injEq, Prod.mk.injEq, pure, Except.pure] at hok
    obtain ⟨hst, -⟩ := hok
    subst hst
    refine ⟨hruns, ?_⟩
    simpa [runCoerced] using hcurr
  | ramanBanner =>
    simp only [step] at hstep
    obtain ⟨pr, -, hok⟩ := bindOk hstep
    obtain ⟨block, rem⟩ := pr
    obtain ⟨modes, -, hok2⟩ := bindOk hok
    obtain ⟨rm, -, hok3⟩ := bindOk hok2
    simp only [Except.ok.injEq, Prod.mk.injEq, pure, Except.pure] at hok3
    obtain ⟨hst, -⟩ := hok3
    subst hst
    refine ⟨hruns, ?_⟩
    simpa [runCoerced] using hcurr
  | bornBanner =>
    simp only [step] at hstep
    obtain ⟨pr, -, hok⟩ := bindOk hstep
    obtain ⟨block, rem⟩ := pr
    obtain ⟨pr2, -, hok2⟩ := bindOk hok
    obtain ⟨acc, cnt⟩ := pr2
    obtain ⟨bn, -, hok3⟩ := bindOk hok2
    simp only [Except.ok.injEq, Prod.mk.injEq, pure, Except.pure] at hok3
    obtain ⟨hst, -⟩ := hok3
    subst hst
    refine ⟨hruns, ?_⟩
    simpa [runCoerced] using hcurr
  | mullBanner =>
    simp only [step] at hstep
    obtain ⟨pr, -, hok⟩ := bindOk hstep
    obtain ⟨block, rem⟩ := pr
    obtain ⟨pr2, -, hok2⟩ := bindOk hok
    obtain ⟨mp, rem2⟩ := pr2
    simp only [Except.ok.injEq, Prod.mk.injEq, pure, Except.pure] at hok2
    obtain ⟨hst, -⟩ := hok2
    subst hst
    refine ⟨hruns, ?_⟩
    simpa [runCoerced] using hcurr
  | phononMode n f ir it ac ri ra =>
    simp only [step, Except.ok.injEq, Prod.mk.injEq] at hstep
    obtain ⟨hst, -⟩ := hstep
    subst hst
    exact ⟨hruns, hcurr⟩
  | phononDecor =>
    simp only [step, Except.ok.injEq, Prod.mk.injEq] at hstep
    obtain ⟨hst, -⟩ := hstep
    subst hst
    exact ⟨hruns, hcurr⟩
  | stressX ns =>
    simp only [step, Except.ok.injEq, Prod.mk.injEq] at hstep
    obtain ⟨hst, -⟩ := hstep
    subst hst
    exact ⟨hruns, hcurr⟩
  | stressY ns =>
    simp only [step, Except.ok.injEq, Prod.mk.injEq] at hstep
    obtain ⟨hst, -⟩ := hstep
    subst hst
    exact ⟨hruns, hcurr⟩
  | stressZ ns =>
    simp only [step, Except.ok.injEq, Prod.mk.injEq] at hstep
    obtain ⟨hst, -⟩ := hstep
    subst hst
    exact ⟨hruns, hcurr⟩
  | starLine =>
    simp only [step, Except.ok.injEq, Prod.mk.injEq] at hstep
    obtain ⟨hst, -⟩ := hstep
    subst hst
    exact ⟨hruns, hcurr⟩
  | modeNumberLine n =>
    simp only [step, Except.ok.injEq, Prod.mk.injEq] at hstep
    obtain ⟨hst, -⟩ := hstep
    subst hst
    exact ⟨hruns, hcurr⟩
  | numRow ns =>
    simp only [step, Except.ok.injEq, Prod.mk.injEq] at hstep
    obtain ⟨hst, -⟩ := hstep
    subst hst
    exact ⟨hruns, hcurr⟩
  | plusSep =>
    simp only [step, Except.ok.injEq, Prod.mk.injEq] at hstep
    obtain ⟨hst, -⟩ := hstep
    subst hst
    exact ⟨hruns, hcurr⟩
  | blankLine =>
    simp only [step, Except.ok.injEq, Prod.mk.injEq] at hstep
    obtain ⟨hst, -⟩ := hstep
    subst hst
    exact ⟨hruns, hcurr⟩
  | eqLine =>
    simp only [step, Except.ok.injEq, Prod.mk.injEq] at hstep
    obtain ⟨hst, -⟩ := hstep
    subst hst
    exact ⟨hruns, hcurr⟩
  | bornHeader sp idx cs =>
    simp only [step, Except.ok.injEq, Prod.mk.injEq] at hstep
    obtain ⟨hst, -⟩ := hstep
    subst hst
    exact ⟨hruns, hcurr⟩
  | mullRow sp idx ss s p d f t c spn =>
    simp only [step, Except.ok.injEq, Prod.mk.injEq] at hstep
    obtain ⟨hst, -⟩ := hstep
    subst hst
    exact ⟨hruns, hcurr⟩
  | mullDnRow idx s p d f t =>
    simp only [step, Except.ok.injEq, Prod.mk.injEq] at hstep
    obtain ⟨hst, -⟩ := hstep
    subst hst
    exact ⟨hruns, hcurr⟩
  | magresRow0 sp idx iso an asym =>
    simp only [step, Except.ok.injEq, Prod.mk.injEq] at hstep
    obtain ⟨hst, -⟩ := hstep
    subst hst
    exact ⟨hruns, hcurr⟩
  | otherLine =>
    simp only [step, Except.ok.injEq, Prod.mk.injEq] at hstep
    obtain ⟨hst, -⟩ := hstep
    subst hst
    exact ⟨hruns, hcurr⟩

/-- Every run a successful main loop emits keeps float-only energy
accumulators. -/
theorem mainLoop_coerced : ∀ (fuel : Nat) (st : PState) (ls : List Line)
    (out : List Run), mainLoop fuel st ls = .ok out →
    (∀ r ∈ st.runs, runCoerced r = true) → runCoerced st.curr = true →
    ∀ r ∈ out, runCoerced r = true := by
  intro fuel
  induction fuel with
  | zero =>
    intro st ls out hml hruns hcurr r hr
    cases ls with
    | nil =>
      simp only [mainLoop, eofSeal] at hml
      by_cases ht : runTruthy st.curr
      · rw [if_pos ht] at hml
        obtain ⟨r', hr', hok⟩ := bindOk hml
        simp only [Except.ok.injEq] at hok
        subst hok
        rcases List.mem_append.1 hr with hini | hfin
        · exact hruns r hini
        · have hfix := fixRunTypes_coerced st.curr hcurr
          rw [hfix] at hr'
          simp only [Except.ok.injEq] at hr'
          subst hr'
          rw [List.mem_singleton] at hfin
          subst hfin
          exact hcurr
      · rw [if_neg ht] at hml
        simp only [Except.ok.injEq] at hml
        subst hml
        exact hruns r hr
    | cons l ls' => simp [mainLoop] at hml
  | succ n ih =>
    intro st ls out hml hruns hcurr r hr
    cases ls with
    | nil =>
      simp only [mainLoop, eofSeal] at hml
      by_cases ht : runTruthy st.curr
      · rw [if_pos ht] at hml
        obtain ⟨r', hr', hok⟩ := bindOk hml
        simp only [Except.ok.injEq] at hok
        subst hok
        rcases List.mem_append.1 hr with hini | hfin
        · exact hruns r hini
        · have hfix := fixRunTypes_coerced st.curr hcurr
          rw [hfix] at hr'
          simp only [Except.ok.injEq] at hr'
          subst hr'
          rw [List.mem_singleton] at hfin
          subst hfin
          exact hcurr
      · rw [if_neg ht] at hml
        simp only [Except.ok.injEq] at hml
        subst hml
        exact hruns r hr
    | cons l ls' =>
      simp only [mainLoop] at hml
      obtain ⟨pr, hpr, hok⟩ := bindOk hml
      obtain ⟨st', rest⟩ := pr
      obtain ⟨h1, h2⟩ := step_inv l ls' st st' rest hpr hruns hcurr
      exact ih st' rest out hok h1 h2 r hr

/-- C5: every run record in the returned result sequence — whether sealed at a
subsequent run-start marker or at end of input — is in the form the whole-run
type-coercion pass produces: its `energies` and `solvation_energies` entries
are floats, and applying the source's final coercion pass to it is the
identity. -/
theorem claim_C5_sealed_coerced (ls : List Line) (out : List Run)
    (h : parseCastepFile ls = .ok out) :
    ∀ r ∈ out, runCoerced r = true ∧ fixRunTypes r = .ok r := by
  intro r hr
  have hc := mainLoop_coerced (ls.length + 1) ⟨[], initRun⟩ ls out h
    (by intro r' hr'; simp at hr') (by decide) r hr
  exact ⟨hc, fixRunTypes_coerced r hc⟩

/-- Witness for C5 at a concrete two-accumulator run. -/
theorem claim_C5_witness : runCoerced rC5 = true ∧ fixRunTypes rC5 = .ok rC5 :=
  claim_C5_sealed_coerced exC5 [rC5] rfl rC5 (List.mem_singleton.mpr rfl)

/-- The block extractor leaves a suffix of its input as the remaining cursor. -/
theorem findEnd_len (isEnd : Line → Bool) :
    ∀ (ls : List Line) (cnt : Nat) (b r : List Line),
      findEnd isEnd cnt ls = Option.some (b, r) → r.length ≤ ls.length := by
  intro ls
  induction ls with
  | nil => intro cnt b r h; simp [findEnd] at h
  | cons l ls ih =>
    intro cnt b r h
    simp only [findEnd] at h
    by_cases he : isEnd l
    · rw [if_pos he] at h
      by_cases hc : cnt ≤ 1
      · rw [if_pos hc] at h
        simp only [Option.some.injEq, Prod.mk.injEq] at h
        obtain ⟨-, h2⟩ := h
        subst h2
        exact Nat.le_succ _
      · rw [if_neg hc] at h
        cases hfe : findEnd isEnd (cnt - 1) ls with
        | none => rw [hfe] at h; simp at h
        | some br =>
          rw [hfe] at h
          obtain ⟨b2, r2⟩ := br
          simp only [Option.some.injEq, Prod.mk.injEq] at h
          obtain ⟨-, h2⟩ := h
          subst h2
          exact Nat.le_succ_of_le (ih _ _ _ hfe)
    · rw [if_neg he] at h
      cases hfe : findEnd isEnd cnt ls with
      | none => rw [hfe] at h; simp at h
      | some br =>
        rw [hfe] at h
        obtain ⟨b2, r2⟩ := br
        simp only [Option.some.injEq, Prod.mk.injEq] at h
        obtain ⟨-, h2⟩ := h
        subst h2
        exact Nat.le_succ_of_le (ih _ _ _ hfe)

/-- `getBlock` leaves a suffix of its input as the remaining cursor. -/
theorem getBlock_len (isEnd : Line → Bool) (cnt : Nat) (l : Line) (rest : List Line)
    (block rem : List Line) (h : getBlock isEnd cnt l rest = .ok (block, rem)) :
    rem.length ≤ rest.length := by
  simp only [getBlock] at h
  cases hfe : findEnd isEnd cnt rest with
  | none => rw [hfe] at h; simp at h
  | some br =>
    rw [hfe] at h
    obtain ⟨b2, r2⟩ := br
    simp only [Except.ok.injEq, Prod.mk.injEq] at h
    obtain ⟨-, h2⟩ := h
    rw [← h2]
    exact findEnd_len isEnd rest cnt b2 r2 hfe

/-- The phonon look-ahead leaves a suffix of its input as the remaining cursor. -/
theorem phononScan_len (isDef : Bool) :
    ∀ (ls : List Line) (qdata : ColDict) (ph ph' : Option (List ColDict))
      (rest : List Line), phononScan isDef ls qdata ph = .ok (ph', rest) →
      rest.length ≤ ls.length := by
  intro ls
  induction ls with
  | nil => intro qdata ph ph' rest h; simp [phononScan] at h
  | cons l ls ih =>
    intro qdata ph ph' rest h
    cases l with
    | phononHeader qn qpt w =>
      simp only [phononScan] at h
      obtain ⟨ph2, -, h2⟩ := bindOk h
      exact Nat.le_succ_of_le (ih _ _ _ _ h2)
    | phononDecor =>
      simp only [phononScan] at h
      exact Nat.le_succ_of_le (ih _ _ _ _ h)
    | phononMode n f ir it ac ri ra =>
      simp only [phononScan] at h
      exact Nat.le_succ_of_le (ih _ _ _ _ h)
    | plusSep =>
      simp only [phononScan] at h
      exact Nat.le_succ_of_le (ih _ _ _ _ h)
    | _ =>
      simp only [phononScan] at h
      obtain ⟨ph2, -, h2⟩ := bindOk h
      simp only [Except.ok.injEq, Prod.mk.injEq] at h2
      obtain ⟨-, h3⟩ := h2
      subst h3
      exact Nat.le_succ _

set_option maxHeartbeats 1600000 in
/-- The Mulliken walk only ever consumes lines from the file cursor. -/
theorem mullScan_len (isDef : Bool) :
    ∀ (block rem : List Line) (mp mp' : Option (List ScalDict)) (rem' : List Line),
      mullScan isDef block rem mp = .ok (mp', rem') → rem'.length ≤ rem.length := by
  intro block
  induction block with
  | nil =>
    intro rem mp mp' rem' h
    simp only [mullScan, Except.ok.injEq, Prod.mk.injEq] at h
    obtain ⟨-, h2⟩ := h
    subst h2
    exact Nat.le_refl _
  | cons l ls ih =>
    intro rem mp mp' rem' h
    cases l with
    | mullRow sp idx ss s p d f t c spn =>
      simp only [mullScan] at h
      cases ss with
      | false =>
        simp only [Bool.false_eq_true, if_false] at h
        obtain ⟨y, hy, h2⟩ := bindOk h
        obtain ⟨mull2, -, h3⟩ := bindOk h2
        obtain ⟨mp2, -, h4⟩ := bindOk h3
        simp only [Except.ok.injEq] at hy
        subst hy
        exact ih _ _ _ _ h4
      | true =>
        simp only [if_true] at h
        cases rem with
        | nil =>
          obtain ⟨y, hy, -⟩ := bindOk h
          exact absurd hy (by simp)
        | cons l2 remtl =>
          cases l2 with
          | mullDnRow i2 s2 p2 d2 f2 t2 =>
            obtain ⟨q1, -, h2⟩ := bindOk h
            obtain ⟨u1, -, h3⟩ := bindOk h2
            obtain ⟨q2, -, h4⟩ := bindOk h3
            obtain ⟨u2, -, h5⟩ := bindOk h4
            obtain ⟨y, hy, h6⟩ := bindOk h5
            obtain ⟨mull2, -, h7⟩ := bindOk h6
            obtain ⟨mp2, -, h8⟩ := bindOk h7
            simp only [Except.ok.injEq] at hy
            subst hy
            exact Nat.le_succ_of_le (ih _ _ _ _ h8)
          | _ =>
            obtain ⟨y, hy, -⟩ := bindOk h
            exact absurd hy (by simp)
    | _ =>
      simp only [mullScan] at h
      exact ih _ _ _ _ h

/-- A dispatch step leaves a suffix of the current tail as the remaining
cursor. -/
theorem step_len (l : Line) (ls : List Line) (st st' : PState) (rest : List Line)
    (h : step l ls st = .ok (st', rest)) : rest.length ≤ ls.length := by
  cases l with
  | runStarted =>
    simp only [step, Except.ok.injEq, Prod.mk.injEq] at h
    obtain ⟨-, h2⟩ := h
    subst h2
    exact Nat.le_refl _
  | finalEnergy ns =>
    simp only [step] at h
    cases hlast : ns.getLast? with
    | none => rw [hlast] at h; simp at h
    | some x =>
      rw [hlast] at h
      obtain ⟨en, -, h2⟩ := bindOk h
      simp only [Except.ok.injEq, Prod.mk.injEq] at h2
      obtain ⟨-, h3⟩ := h2
      subst h3
      exact Nat.le_refl _
  | solvationLine ns =>
    simp only [step] at h
    match ns, h with
    | [x], h =>
      obtain ⟨sv, -, h2⟩ := bindOk h
      simp only [Except.ok.injEq, Prod.mk.injEq] at h2
      obtain ⟨-, h3⟩ := h2
      subst h3
      exact Nat.le_refl _
  | stressBanner =>
    simp only [step] at h
    obtain ⟨pr, hpr, h2⟩ := bindOk h
    obtain ⟨block, rem⟩ := pr
    simp only [Except.ok.injEq, Prod.mk.injEq] at h2
    obtain ⟨-, h3⟩ := h2
    subst h3
    exact getBlock_len _ _ _ _ _ _ hpr
  | phononHeader qn qpt w =>
    simp only [step] at h
    obtain ⟨pr, hpr, h2⟩ := bindOk h
    obtain ⟨ph, rem⟩ := pr
    simp only [Except.ok.injEq, Prod.mk.injEq] at h2
    obtain ⟨-, h3⟩ := h2
    subst h3
    exact phononScan_len _ _ _ _ _ _ hpr
  | ramanBanner =>
    simp only [step] at h
    obtain ⟨pr, hpr, h2⟩ := bindOk h
    obtain ⟨block, rem⟩ := pr
    obtain ⟨modes, -, h3⟩ := bindOk h2
    obtain ⟨rm, -, h4⟩ := bindOk h3
    simp only [Except.ok.injEq, Prod.mk.injEq] at h4
    obtain ⟨-, h5⟩ := h4
    subst h5
    exact getBlock_len _ _ _ _ _ _ hpr
  | bornBanner =>
    simp only [step] at h
    obtain ⟨pr, hpr, h2⟩ := bindOk h
    obtain ⟨block, rem⟩ := pr
    obtain ⟨pr2, -, h3⟩ := bindOk h2
    obtain ⟨acc, cnt⟩ := pr2
    obtain ⟨bn, -, h4⟩ := bindOk h3
    simp only [Except.ok.injEq, Prod.mk.injEq] at h4
    obtain ⟨-, h5⟩ := h4
    subst h5
    exact getBlock_len _ _ _ _ _ _ hpr
  | mullBanner =>
    simp only [step] at h
    obtain ⟨pr, hpr, h2⟩ := bindOk h
    obtain ⟨block, rem⟩ := pr
    obtain ⟨pr2, hpr2, h3⟩ := bindOk h2
    obtain ⟨mp, rem2⟩ := pr2
    simp only [Except.ok.injEq, Prod.mk.injEq] at h3
    obtain ⟨-, h4⟩ := h3
    subst h4
    exact Nat.le_trans (mullScan_len _ _ _ _ _ _ hpr2) (getBlock_len _ _ _ _ _ _ hpr)
  | _ =>
    simp only [step, Except.ok.injEq, Prod.mk.injEq] at h
    obtain ⟨-, h2⟩ := h
    subst h2
    exact Nat.le_refl _

/-- The fuel argument of `mainLoop` is irrelevant once it exceeds the input
length. -/
theorem mainLoop_fuel_eq : ∀ (f : Nat) (g : Nat) (st : PState) (ls : List Line),
    ls.length < f → ls.length < g → mainLoop f st ls = mainLoop g st ls := by
  intro f
  induction f with
  | zero => intro g st ls hf; exact absurd hf (Nat.not_lt_zero _)
  | succ f ih =>
    intro g st ls hf hg
    cases ls with
    | nil => cases g with
      | zero => rfl
      | succ g => rfl
    | cons l ls' =>
      cases g with
      | zero => omega
      | succ g =>
        simp only [mainLoop]
        cases hs : step l ls' st with
        | error e => simp [Bind.bind, Except.bind, hs]
        | ok pr =>
          obtain ⟨st', rest⟩ := pr
          have hlen := step_len l ls' st st' rest hs
          simp only [List.length_cons] at hf hg
          simp only [Bind.bind, Except.bind, hs]
          exact ih g st' rest (by omega) (by omega)

/-- A successful lookup is a membership. -/
theorem alGet_mem {κ α : Type} [DecidableEq κ] :
    ∀ (d : List (κ × α)) (k : κ) (v : α), alGet d k = Option.some v → (k, v) ∈ d := by
  intro d
  induction d with
  | nil => intro k v h; simp [alGet] at h
  | cons kv d ih =>
    intro k v h
    obtain ⟨k', v'⟩ := kv
    simp only [alGet] at h
    by_cases hk : k' = k
    · rw [if_pos hk] at h
      simp only [Option.some.injEq] at h
      subst hk
      subst h
      exact List.mem_cons_self _ _
    · rw [if_neg hk] at h
      exact List.mem_cons_of_mem _ (ih k v h)

/-- Members of an updated association list are old members or the new pair. -/
theorem mem_alSet {κ α : Type} [DecidableEq κ] :
    ∀ (d : List (κ × α)) (k : κ) (v : α) (a : κ) (b : α),
      (a, b) ∈ alSet d k v → (a, b) ∈ d ∨ (a = k ∧ b = v) := by
  intro d
  induction d with
  | nil =>
    intro k v a b h
    simp only [alSet, List.mem_singleton, Prod.mk.injEq] at h
    exact Or.inr h
  | cons kv d ih =>
    intro k v a b h
    obtain ⟨k', v'⟩ := kv
    simp only [alSet] at h
    by_cases hk : k' = k
    · rw [if_pos hk] at h
      rcases List.mem_cons.1 h with h1 | h1
      · simp only [Prod.mk.injEq] at h1
        obtain ⟨h2, h3⟩ := h1
        subst h2; subst h3
        exact Or.inr ⟨hk, rfl⟩
      · exact Or.inl (List.mem_cons_of_mem _ h1)
    · rw [if_neg hk] at h
      rcases List.mem_cons.1 h with h1 | h1
      · exact Or.inl (List.mem_cons.2 (Or.inl h1))
      · rcases ih k v a b h1 with h2 | h2
        · exact Or.inl (List.mem_cons_of_mem _ h2)
        · exact Or.inr h2

/-- `alSet` preserves a pointwise `Bool` predicate on entries. -/
theorem alSet_all {κ α : Type} [DecidableEq κ] (p : κ × α → Bool) :
    ∀ (d : List (κ × α)) (k : κ) (v : α), d.all p = true → p (k, v) = true →
      (alSet d k v).all p = true := by
  intro d
  induction d with
  | nil => intro k v _ hp; simpa [alSet]
  | cons kv d ih =>
    intro k v hall hp
    obtain ⟨k', v'⟩ := kv
    rw [List.all_cons, Bool.and_eq_true] at hall
    obtain ⟨h1, h2⟩ := hall
    simp only [alSet]
    by_cases hk : k' = k
    · rw [if_pos hk]
      rw [List.all_cons, Bool.and_eq_true]
      exact ⟨by simpa [← hk] using hp, h2⟩
    · rw [if_neg hk]
      rw [List.all_cons, Bool.and_eq_true]
      exact ⟨h1, ih k v h2 hp⟩

/-- Coercion succeeds on a well-formed element and yields an element that is
well-formed for every target type. -/
theorem coerceVal_ok (ty : CTy) (v : Val) (h : tyOkFor ty v = true) :
    ∃ v', coerceVal ty v = .ok v' ∧ ∀ ty2 : CTy, tyOkFor ty2 v' = true := by
  cases ty with
  | toFloat =>
    cases v with
    | str q => exact ⟨.flt q, rfl, fun ty2 => by cases ty2 <;> rfl⟩
    | flt q => exact ⟨.flt q, rfl, fun ty2 => by cases ty2 <;> rfl⟩
    | intv n => exact ⟨.flt n, rfl, fun ty2 => by cases ty2 <;> rfl⟩
    | nil => exact ⟨.nil, rfl, fun ty2 => by cases ty2 <;> rfl⟩
    | txt s => exact absurd h (by simp [tyOkFor])
  | toInt =>
    cases v with
    | str q =>
      simp only [tyOkFor, beq_iff_eq] at h
      exact ⟨.intv q.num, by simp [coerceVal, h], fun ty2 => by cases ty2 <;> rfl⟩
    | flt q => exact ⟨.intv q.floor, rfl, fun ty2 => by cases ty2 <;> rfl⟩
    | intv n => exact ⟨.intv n, rfl, fun ty2 => by cases ty2 <;> rfl⟩
    | nil => exact ⟨.nil, rfl, fun ty2 => by cases ty2 <;> rfl⟩
    | txt s => exact absurd h (by simp [tyOkFor])

/-- Column coercion succeeds on a well-formed column. -/
theorem mapM_coerce_ok (ty : CTy) :
    ∀ vs : List Val, vs.all (tyOkFor ty) = true →
      ∃ vs', vs.mapM (coerceVal ty) = .ok vs' ∧
        ∀ ty2 : CTy, vs'.all (tyOkFor ty2) = true := by
  intro vs
  induction vs with
  | nil => intro _; exact ⟨[], rfl, fun ty2 => rfl⟩
  | cons v vs ih =>
    intro h
    rw [List.all_cons, Bool.and_eq_true] at h
    obtain ⟨hv, hvs⟩ := h
    obtain ⟨v', hv', hv2⟩ := coerceVal_ok ty v hv
    obtain ⟨vs', hvs', hvs2⟩ := ih hvs
    refine ⟨v' :: vs', ?_, ?_⟩
    · rw [List.mapM_cons, hv', hvs']
      rfl
    · intro ty2
      rw [List.all_cons, Bool.and_eq_true]
      exact ⟨hv2 ty2, hvs2 ty2⟩

/-- The type-fixing pass succeeds when every listed column is well-formed. -/
theorem fixTypesCols_ok :
    ∀ (table : List (String × CTy)) (d : ColDict),
      (∀ k ty vs, (k, ty) ∈ table → (k, vs) ∈ d → vs.all (tyOkFor ty) = true) →
      ∃ d', fixTypesCols d table = .ok d' := by
  intro table
  induction table with
  | nil => intro d _; exact ⟨d, rfl⟩
  | cons kty table ih =>
    intro d hok
    obtain ⟨k, ty⟩ := kty
    simp only [fixTypesCols]
    cases hget : alGet d k with
    | none =>
      exact ih d (fun k2 ty2 vs2 ht2 hd2 => hok k2 ty2 vs2 (List.mem_cons_of_mem _ ht2) hd2)
    | some vs =>
      have hmem := alGet_mem d k vs hget
      have hvs := hok k ty vs (List.mem_cons_self _ _) hmem
      obtain ⟨vs', hvs', hvs2⟩ := mapM_coerce_ok ty vs hvs
      show ∃ d', (do
        let vs2 ← vs.mapM (coerceVal ty)
        fixTypesCols (alSet d k vs2) table) = .ok d'
      rw [hvs']
      have hok2 : ∀ k2 ty2 vs2, (k2, ty2) ∈ table → (k2, vs2) ∈ alSet d k vs' →
          vs2.all (tyOkFor ty2) = true := by
        intro k2 ty2 vs2 ht2 hd2
        rcases mem_alSet d k vs' k2 vs2 hd2 with h1 | h1
        · exact hok k2 ty2 vs2 (List.mem_cons_of_mem _ ht2) h1
        · obtain ⟨-, h3⟩ := h1
          subst h3
          exact hvs2 ty2
      obtain ⟨d', hd'⟩ := ih (alSet d k vs') hok2
      exact ⟨d', hd'⟩

/-- `process_qdata` succeeds on a well-formed q-point accumulator. -/
theorem processQdata_ok (q : ColDict) (h : qdataOk q = true) :
    ∃ q', processQdata q = .ok q' := by
  apply fixTypesCols_ok
  intro k ty vs htab hmem
  rw [List.mem_filter] at hmem
  obtain ⟨hmem, -⟩ := hmem
  rw [qdataOk, List.all_eq_true] at h
  have hcol := h _ hmem
  simp only [List.mem_cons, List.mem_singleton, Prod.mk.injEq] at htab
  rcases htab with ⟨h1, h2⟩ | ⟨h1, h2⟩ | ⟨h1, h2⟩ | ⟨h1, h2⟩ | ⟨h1, h2⟩ | h1 <;>
    first
      | (subst h1; subst h2; simpa [colOk] using hcol)
      | exact absurd h1 (by simp)

/-- Storing a pending q-point accumulator succeeds inside a started run. -/
theorem phononStore_ok (q : ColDict) (h : qdataOk q = true) :
    ∀ ph, ∃ ph', phononStore true ph q = .ok ph' := by
  intro ph
  simp only [phononStore]
  by_cases hq : ((alGet q "qpt").getD []).isEmpty
  · rw [if_pos hq]
    exact ⟨ph, rfl⟩
  · rw [if_neg hq]
    obtain ⟨q', hq'⟩ := processQdata_ok q h
    cases ph with
    | none =>
      exact ⟨Option.some [q'], by simp [Bind.bind, Except.bind, hq']⟩
    | some lst =>
      by_cases hm : ((alGet q "qpt").getD []) ∈
          lst.map (fun ph2 => (alGet ph2 "qpt").getD [])
      · exact ⟨Option.some lst, by simp [Bind.bind, Except.bind, hm]⟩
      · exact ⟨Option.some (lst ++ [q']), by simp [Bind.bind, Except.bind, hm, hq']⟩

/-- Stacking one well-formed groupdict preserves accumulator well-formedness. -/
theorem stackDict_ok :
    ∀ (gd : ScalDict) (q : ColDict), qdataOk q = true → gd.all gdEntryOk = true →
      qdataOk (stackDict q gd) = true := by
  intro gd
  induction gd with
  | nil => intro q hq _; exact hq
  | cons kv gd ih =>
    intro q hq hgd
    obtain ⟨k, v⟩ := kv
    rw [List.all_cons, Bool.and_eq_true] at hgd
    obtain ⟨hkv, hgd⟩ := hgd
    simp only [stackDict]
    apply ih _ _ hgd
    apply alSet_all colOk q k _ hq
    have hold : colOk (k, (alGet q k).getD []) = true := by
      cases hget : alGet q k with
      | none => simp [colOk]
      | some vs =>
        have := alGet_mem q k vs hget
        rw [qdataOk, List.all_eq_true] at hq
        simpa using hq _ this
    simp only [colOk, gdEntryOk] at hold hkv ⊢
    by_cases hN : k = "N"
    · simp only [hN, if_true] at hold hkv ⊢
      simp [List.all_append, hold, hkv]
    · simp only [hN, if_false] at hold hkv ⊢
      by_cases hF : k = "qpt" ∨ k = "frequency" ∨ k = "intensity" ∨ k = "raman_intensity"
      · have hF2 : (k == "qpt" || k == "frequency" || k == "intensity" ||
            k == "raman_intensity") = true := by
          rcases hF with h | h | h | h <;> simp [h]
        simp only [decide_eq_true_eq] at *
        rcases hF with h | h | h | h <;>
          simp_all [List.all_append]
      · have hF2 : ¬ (k = "qpt" || k = "frequency" || k = "intensity" ||
            k = "raman_intensity") = true := by
          simp only [Bool.or_eq_true, decide_eq_true_eq]
          tauto
        simp_all

/-- A per-mode groupdict with an integral `N` capture is well-formed. -/
theorem phModeGd_ok (n f : Rat) (ir : Option String) (it : Option Rat)
    (ac : Option String) (ri : Option Rat) (ra : Option String) (h : n.den = 1) :
    (phModeGd n f ir it ac ri ra).all gdEntryOk = true := by
  cases it <;> cases ri <;>
    simp [phModeGd, gdEntryOk, optStr, optTxt, tyOkFor, h]

/-- A fresh q-point accumulator is well-formed. -/
theorem freshQdata_ok (qpt : List Rat) : qdataOk (freshQdata qpt) = true := by
  simp only [freshQdata, qdataOk, List.all_cons, List.all_nil, colOk]
  simp [List.all_eq_true, tyOkFor]

/-- Inside a started run, the phonon look-ahead over well-formed continuation
lines terminated by a non-matching breaker succeeds and hands back exactly the
lines after the breaker. -/
theorem phononScan_ok :
    ∀ (inner : List Line) (brk : Line) (after : List Line) (qdata : ColDict)
      (ph : Option (List ColDict)),
      inner.all (fun l => phononLoopLine l && phononLineOk l) = true →
      phononLoopLine brk = false → qdataOk qdata = true →
      ∃ ph', phononScan true (inner ++ brk :: after) qdata ph = .ok (ph', after) := by
  intro inner
  induction inner with
  | nil =>
    intro brk after qdata ph _ hbrk hq
    obtain ⟨ph', hst⟩ := phononStore_ok qdata hq ph
    cases brk <;> simp only [phononLoopLine] at hbrk <;>
      first
        | exact Bool.noConfusion hbrk
        | exact ⟨ph', by simp [phononScan, List.nil_append, hst, Bind.bind, Except.bind]⟩
  | cons l inner ih =>
    intro brk after qdata ph hinner hbrk hq
    rw [List.all_cons, Bool.and_eq_true] at hinner
    obtain ⟨hl, hinner⟩ := hinner
    rw [Bool.and_eq_true] at hl
    obtain ⟨hl1, hl2⟩ := hl
    cases l with
    | phononHeader qn qpt w =>
      obtain ⟨ph2, hst⟩ := phononStore_ok qdata hq ph
      obtain ⟨ph', hrec⟩ := ih brk after (freshQdata qpt) ph2 hinner hbrk (freshQdata_ok qpt)
      exact ⟨ph', by simp [phononScan, hst, hrec, Bind.bind, Except.bind]⟩
    | phononMode n f ir it ac ri ra =>
      simp only [phononLineOk, beq_iff_eq] at hl2
      have hq2 := stackDict_ok (phModeGd n f ir it ac ri ra) qdata hq
        (phModeGd_ok n f ir it ac ri ra hl2)
      obtain ⟨ph', hrec⟩ := ih brk after _ ph hinner hbrk hq2
      exact ⟨ph', by simpa [phononScan] using hrec⟩
    | phononDecor =>
      obtain ⟨ph', hrec⟩ := ih brk after qdata ph hinner hbrk hq
      exact ⟨ph', by simpa [phononScan] using hrec⟩
    | plusSep =>
      obtain ⟨ph', hrec⟩ := ih brk after qdata ph hinner hbrk hq
      exact ⟨ph', by simpa [phononScan] using hrec⟩
    | _ => exact absurd hl1 (by simp [phononLoopLine])

/-- The Born body loop succeeds on a well-formed block body. -/
theorem bornLoop_ok {body : List Line} (hb : BornBody body) :
    ∀ (acc : BornAcc) (cnt : Nat), ∃ acc' cnt', bornLoop body acc cnt = .ok (acc', cnt') := by
  induction hb with
  | nil => intro acc cnt; exact ⟨acc, cnt, rfl⟩
  | skip l ls hl hb ih =>
    intro acc cnt
    cases l <;> simp only [bornSkippable] at hl <;>
      first
        | exact Bool.noConfusion hl
        | simpa [bornLoop] using ih acc cnt
  | stride sp idx cs r1 r2 ls hb ih =>
    intro acc cnt
    obtain ⟨acc', cnt', h⟩ := ih (alSet acc (sp, idx) [cs, r1, r2]) (cnt + 1)
    exact ⟨acc', cnt', by simpa [bornLoop, splitFloats, Bind.bind, Except.bind] using h⟩

/-- A well-formed Born body contains no block terminator and no run-start
marker. -/
theorem bornBody_clean {body : List Line} (hb : BornBody body) :
    body.all (fun l => !isEqLine l) = true ∧ ∀ l ∈ body, l ≠ Line.runStarted := by
  induction hb with
  | nil => exact ⟨rfl, by intro l hl; simp at hl⟩
  | skip l ls hl hb ih =>
    obtain ⟨ih1, ih2⟩ := ih
    constructor
    · rw [List.all_cons, Bool.and_eq_true]
      refine ⟨?_, ih1⟩
      cases l <;> first | rfl | exact Bool.noConfusion hl
    · intro l2 hl2
      rcases List.mem_cons.1 hl2 with h | h
      · subst h
        intro hcon
        subst hcon
        exact Bool.noConfusion hl
      · exact ih2 l2 h
  | stride sp idx cs r1 r2 ls hb ih =>
    obtain ⟨ih1, ih2⟩ := ih
    constructor
    · simp only [List.all_cons, Bool.and_eq_true]
      exact ⟨rfl, rfl, rfl, ih1⟩
    · intro l2 hl2
      simp only [List.mem_cons] at hl2
      rcases hl2 with h | h | h | h
      · subst h; intro hcon; exact Line.noConfusion hcon
      · subst h; intro hcon; exact Line.noConfusion hcon
      · subst h; intro hcon; exact Line.noConfusion hcon
      · exact ih2 l2 h

/-- Scanning past a clean prefix, the extractor stops at the terminator and
hands back exactly the lines after it. -/
theorem findEnd_clean1 (isEnd : Line → Bool) :
    ∀ (xs : List Line) (t : Line) (rest : List Line),
      xs.all (fun l => !isEnd l) = true → isEnd t = true →
      findEnd isEnd 1 (xs ++ t :: rest) = Option.some (xs, rest) := by
  intro xs
  induction xs with
  | nil =>
    intro t rest _ ht
    simp [findEnd, ht]
  | cons x xs ih =>
    intro t rest hall ht
    rw [List.all_cons, Bool.and_eq_true] at hall
    obtain ⟨hx, hall⟩ := hall
    rw [Bool.not_eq_true'] at hx
    simp [findEnd, hx, ih t rest hall ht]

/-- A line no handler reacts to is consumed with no effect. -/
theorem step_skip (l : Line) (ls : List Line) (st : PState)
    (h : triggersHandler l = false) : step l ls st = .ok (st, ls) := by
  cases l <;> first | exact Bool.noConfusion h | rfl

/-- Appending a Born block's result always succeeds inside a started run. -/
theorem appendBorn_ok (fld : Option (List BornAcc)) (acc : BornAcc) (cnt : Nat) :
    ∃ bn, appendBorn true fld acc cnt = .ok bn := by
  by_cases h0 : cnt = 0
  · exact ⟨fld, by simp [appendBorn, h0]⟩
  · cases fld with
    | some xs =>
      exact ⟨Option.some (xs ++ List.replicate cnt acc), by simp [appendBorn, h0]⟩
    | none =>
      exact ⟨Option.some (List.replicate cnt acc), by simp [appendBorn, h0]⟩

/-- An append to a defaultdict-list field always succeeds. -/
theorem appendOpt_ok {α : Type} (key : String) (fld : Option (List α)) (x : α) :
    ∃ out, appendOpt true key fld x = .ok out := by
  cases fld with
  | some xs => exact ⟨Option.some (xs ++ [x]), rfl⟩
  | none => exact ⟨Option.some [x], rfl⟩

/-- Unpacking the `started` predicate into its four field facts. -/
theorem started_fields (r : Run) (h : started r = true) :
    r.isDefaultd = true ∧ r.hasSpecies = true ∧
      (r.energies.getD []).all valIsFlt = true ∧
      (r.solvationEnergies.getD []).all valIsFlt = true := by
  simp only [started, runCoerced, Bool.and_eq_true] at h
  exact ⟨h.1.1, h.1.2, h.2.1, h.2.2⟩

/-- Appending a float to the energies accumulator keeps the run started. -/
theorem started_energy (r : Run) (h : started r = true) (x : Rat) :
    started { r with
      energies := Option.some (r.energies.getD [] ++ [Val.flt x]) } = true := by
  obtain ⟨h1, h2, h3, h4⟩ := started_fields r h
  simp [started, runCoerced, h1, h2, h4, List.all_append, h3, valIsFlt]

/-- Appending a float to the solvation accumulator keeps the run started. -/
theorem started_solv (r : Run) (h : started r = true) (x : Rat) :
    started { r with
      solvationEnergies := Option.some (r.solvationEnergies.getD [] ++ [Val.flt x]) } =
      true := by
  obtain ⟨h1, h2, h3, h4⟩ := started_fields r h
  simp [started, runCoerced, h1, h2, h3, List.all_append, h4, valIsFlt]

/-- Unfolding one successful step of the main loop. -/
theorem mainLoop_cons_ok (f : Nat) (st st' : PState) (l : Line) (ls rest : List Line)
    (hstep : step l ls st = .ok (st', rest)) :
    mainLoop (f + 1) st (l :: ls) = mainLoop f st' rest := by
  simp [mainLoop, hstep, Bind.bind, Except.bind]

/-- Consuming one complete chunk advances the main loop to the following lines,
leaving the sealed runs untouched and the live run started. -/
theorem chunk_consume (c : List Line) (hc : Chunk c) :
    ∀ (after : List Line) (fuel : Nat) (st : PState), started st.curr = true →
      (c ++ after).length < fuel →
      ∃ curr', mainLoop fuel st (c ++ after) =
        mainLoop (after.length + 1) ⟨st.runs, curr'⟩ after ∧ started curr' = true := by
  have hmain : ∀ (f : Nat) (st : PState) (hd : Line) (mid after : List Line) (curr' : Run),
      step hd (mid ++ after) st = .ok (⟨st.runs, curr'⟩, after) → after.length < f →
      mainLoop (f + 1) st (hd :: (mid ++ after)) =
        mainLoop (after.length + 1) ⟨st.runs, curr'⟩ after := by
    intro f st hd mid after curr' hstep hlen
    simp only [mainLoop, hstep, Bind.bind, Except.bind]
    exact mainLoop_fuel_eq f (after.length + 1) _ after hlen (Nat.lt_succ_self _)
  cases hc with
  | skip l hl =>
    intro after fuel st hst hlen
    cases fuel with
    | zero => exact absurd hlen (Nat.not_lt_zero _)
    | succ f =>
      refine ⟨st.curr, ?_, hst⟩
      have hstep : step l ([] ++ after) st = .ok (⟨st.runs, st.curr⟩, after) :=
        step_skip l after st hl
      have := hmain f st l [] after st.curr hstep (by simp at hlen; omega)
      simpa using this
  | energy ns hns =>
    intro after fuel st hst hlen
    cases fuel with
    | zero => exact absurd hlen (Nat.not_lt_zero _)
    | succ f =>
      obtain ⟨x, hx⟩ : ∃ x, ns.getLast? = Option.some x := by
        cases ns with
        | nil => exact absurd rfl hns
        | cons a as => exact ⟨(a :: as).getLast (by simp), List.getLast?_eq_getLast _ _⟩
      have hdef : st.curr.isDefaultd = true := (started_fields _ hst).1
      have hstep : step (.finalEnergy ns) ([] ++ after) st =
          .ok (⟨st.runs, { st.curr with
            energies := Option.some (st.curr.energies.getD [] ++ [Val.flt x]) }⟩, after) := by
        cases hE : st.curr.energies with
        | none => simp [step, hx, appendOpt, hE, hdef, Bind.bind, Except.bind]
        | some xs => simp [step, hx, appendOpt, hE, Bind.bind, Except.bind]
      refine ⟨_, ?_, started_energy st.curr hst x⟩
      have := hmain f st (.finalEnergy ns) [] after _ hstep (by simp at hlen; omega)
      simpa using this
  | solv x =>
    intro after fuel st hst hlen
    cases fuel with
    | zero => exact absurd hlen (Nat.not_lt_zero _)
    | succ f =>
      have hdef : st.curr.isDefaultd = true := (started_fields _ hst).1
      have hstep : step (.solvationLine [x]) ([] ++ after) st =
          .ok (⟨st.runs, { st.curr with
            solvationEnergies :=
              Option.some (st.curr.solvationEnergies.getD [] ++ [Val.flt x]) }⟩, after) := by
        cases hE : st.curr.solvationEnergies with
        | none => simp [step, appendOpt, hE, hdef, Bind.bind, Except.bind]
        | some xs => simp [step, appendOpt, hE, Bind.bind, Except.bind]
      refine ⟨_, ?_, started_solv st.curr hst x⟩
      have := hmain f st (.solvationLine [x]) [] after _ hstep (by simp at hlen; omega)
      simpa using this
  | stressC body hbody =>
    intro after fuel st hst hlen
    cases fuel with
    | zero => exact absurd hlen (Nat.not_lt_zero _)
    | succ f =>
      have hclean : body.all (fun l => !isStarLine l) = true := by
        rw [List.all_eq_true] at hbody ⊢
        intro l hl
        have := hbody l hl
        rw [Bool.and_eq_true] at this
        exact this.1
      have hfe := findEnd_clean1 isStarLine body .starLine after hclean rfl
      have hstep : step .stressBanner ((body ++ [.starLine]) ++ after) st =
          .ok (⟨st.runs, { st.curr with
            stress := Option.some
              ((stressAccum (.stressBanner :: body)).map Val.flt) }⟩, after) := by
        simp only [step, getBlock, List.append_assoc, List.singleton_append, hfe]
        rfl
      refine ⟨{ st.curr with stress := (Option.some
          ((stressAccum (.stressBanner :: body)).map Val.flt)) }, ?_, ?_⟩
      · have := hmain f st .stressBanner (body ++ [.starLine]) after _ hstep
          (by simp at hlen ⊢; omega)
        simpa using this
      · simp only [started, runCoerced, Bool.and_eq_true] at hst ⊢
        exact hst
  | phononC qn qpt w inner brk hinner hbrk hnm =>
    intro after fuel st hst hlen
    cases fuel with
    | zero => exact absurd hlen (Nat.not_lt_zero _)
    | succ f =>
      have hdef : st.curr.isDefaultd = true := (started_fields _ hst).1
      obtain ⟨ph', hscan⟩ := phononScan_ok inner brk after (freshQdata qpt)
        st.curr.phonons hinner hbrk (freshQdata_ok qpt)
      have hstep : step (.phononHeader qn qpt w) ((inner ++ [brk]) ++ after) st =
          .ok (⟨st.runs, { st.curr with phonons := ph' }⟩, after) := by
        simp only [step, hdef, List.append_assoc, List.singleton_append, hscan,
          Bind.bind, Except.bind]
      refine ⟨{ st.curr with phonons := ph' }, ?_, ?_⟩
      · have := hmain f st (.phononHeader qn qpt w) (inner ++ [brk]) after _ hstep
          (by simp at hlen ⊢; omega)
        simpa using this
      · simp only [started, runCoerced, Bool.and_eq_true] at hst ⊢
        exact hst
  | ramanC k a b c d e fq g h i =>
    intro after fuel st hst hlen
    cases fuel with
    | zero => exact absurd hlen (Nat.not_lt_zero _)
    | succ f =>
      have hdef : st.curr.isDefaultd = true := (started_fields _ hst).1
      have hfe := findEnd_clean1 isBlankLine
        [.modeNumberLine k, .numRow [a, b, c], .numRow [d, e, fq],
         .numRow [g, h, i], .plusSep] .blankLine after rfl rfl
      obtain ⟨rm, hrm⟩ := appendOpt_ok "raman" st.curr.raman
        (⟨[[a, b, c], [d, e, fq], [g, h, i]], Option.none,
          Option.some (a + e + i),
          Option.some (a * e + a * i + e * i - b * d - c * g - fq * h)⟩ :: [])
      have hstep : step .ramanBanner
          (([.modeNumberLine k, .numRow [a, b, c], .numRow [d, e, fq],
             .numRow [g, h, i], .plusSep, .blankLine]) ++ after) st =
          .ok (⟨st.runs, { st.curr with raman := rm }⟩, after) := by
        simp only [List.cons_append, List.nil_append]
        simp only [step, getBlock]
        rw [show (Line.modeNumberLine k :: Line.numRow [a, b, c] :: Line.numRow [d, e, fq] ::
          Line.numRow [g, h, i] :: Line.plusSep :: Line.blankLine :: after) =
          ([Line.modeNumberLine k, Line.numRow [a, b, c], Line.numRow [d, e, fq],
            Line.numRow [g, h, i], Line.plusSep] ++ Line.blankLine :: after) from rfl, hfe]
        show (do
          let modes ← ramanScan [Line.modeNumberLine k, Line.numRow [a, b, c],
            Line.numRow [d, e, fq], Line.numRow [g, h, i], Line.plusSep]
            Option.none []
          let rm2 ← appendOpt st.curr.isDefaultd "raman" st.curr.raman modes
          Except.ok ((⟨st.runs, { st.curr with raman := rm2 }⟩ : PState), after)) =
          Except.ok (⟨st.runs, { st.curr with raman := rm }⟩, after)
        rw [show ramanScan [Line.modeNumberLine k, Line.numRow [a, b, c],
            Line.numRow [d, e, fq], Line.numRow [g, h, i], Line.plusSep]
            Option.none [] =
          .ok [⟨[[a, b, c], [d, e, fq], [g, h, i]], Option.none,
            Option.some (a + e + i),
            Option.some (a * e + a * i + e * i - b * d - c * g - fq * h)⟩] from rfl]
        simp [hdef, hrm, Bind.bind, Except.bind]
      refine ⟨{ st.curr with raman := rm }, ?_, ?_⟩
      · have := hmain f st .ramanBanner
          [.modeNumberLine k, .numRow [a, b, c], .numRow [d, e, fq],
           .numRow [g, h, i], .plusSep, .blankLine] after _ hstep
          (by simp at hlen ⊢; omega)
        simpa using this
      · simp only [started, runCoerced, Bool.and_eq_true] at hst ⊢
        exact hst
  | bornC body hbody =>
    intro after fuel st hst hlen
    cases fuel with
    | zero => exact absurd hlen (Nat.not_lt_zero _)
    | succ f =>
      have hdef : st.curr.isDefaultd = true := (started_fields _ hst).1
      obtain ⟨hclean, -⟩ := bornBody_clean hbody
      have hfe := findEnd_clean1 isEqLine body .eqLine after hclean rfl
      obtain ⟨acc, cnt, hloop⟩ := bornLoop_ok hbody [] 0
      obtain ⟨bn, hbn⟩ := appendBorn_ok st.curr.born acc cnt
      have hstep : step .bornBanner ((body ++ [.eqLine]) ++ after) st =
          .ok (⟨st.runs, { st.curr with born := bn }⟩, after) := by
        simp only [step, getBlock, List.append_assoc, List.singleton_append, hfe]
        have hloop2 : bornLoop (Line.bornBanner :: body) [] 0 = .ok (acc, cnt) := by
          simpa [bornLoop] using hloop
        simp [hdef, hloop2, hbn, Bind.bind, Except.bind]
      refine ⟨{ st.curr with born := bn }, ?_, ?_⟩
      · have := hmain f st .bornBanner (body ++ [.eqLine]) after _ hstep
          (by simp at hlen ⊢; omega)
        simpa using this
      · simp only [started, runCoerced, Bool.and_eq_true] at hst ⊢
        exact hst

/-- Marker counting distributes over concatenation. -/
theorem countRunStarted_append :
    ∀ xs ys : List Line,
      countRunStarted (xs ++ ys) = countRunStarted xs + countRunStarted ys := by
  intro xs ys
  induction xs with
  | nil => simp [countRunStarted]
  | cons l ls ih =>
    cases l <;> (simp [countRunStarted, ih]; try omega)

/-- A list without run-start markers counts zero. -/
theorem countRunStarted_zero :
    ∀ xs : List Line, (∀ l ∈ xs, l ≠ Line.runStarted) → countRunStarted xs = 0 := by
  intro xs
  induction xs with
  | nil => intro _; rfl
  | cons l ls ih =>
    intro h
    have hl := h l (List.mem_cons_self _ _)
    have hls := ih (fun l2 hl2 => h l2 (List.mem_cons_of_mem _ hl2))
    cases l <;> first | exact absurd rfl hl | simpa [countRunStarted] using hls

/-- No line of a complete chunk is a run-start marker. -/
theorem chunk_no_marker {c : List Line} (hc : Chunk c) :
    ∀ l ∈ c, l ≠ Line.runStarted := by
  cases hc with
  | skip l hl =>
    intro l2 hl2
    rw [List.mem_singleton] at hl2
    subst hl2
    intro hcon
    subst hcon
    exact Bool.noConfusion hl
  | energy ns hns =>
    intro l2 hl2
    rw [List.mem_singleton] at hl2
    subst hl2
    exact fun hcon => Line.noConfusion hcon
  | solv x =>
    intro l2 hl2
    rw [List.mem_singleton] at hl2
    subst hl2
    exact fun hcon => Line.noConfusion hcon
  | stressC body hbody =>
    intro l2 hl2
    simp only [List.cons_append, List.mem_cons, List.mem_append,
      List.mem_singleton, List.not_mem_nil, or_false] at hl2
    rcases hl2 with h | h | h
    · subst h; exact fun hcon => Line.noConfusion hcon
    · rw [List.all_eq_true] at hbody
      have := hbody l2 h
      rw [Bool.and_eq_true] at this
      intro hcon
      subst hcon
      simp at this
    · subst h; exact fun hcon => Line.noConfusion hcon
  | phononC qn qpt w inner brk hinner hbrk hnm =>
    intro l2 hl2
    simp only [List.cons_append, List.mem_cons, List.mem_append,
      List.mem_singleton, List.not_mem_nil, or_false] at hl2
    rcases hl2 with h | h | h
    · subst h; exact fun hcon => Line.noConfusion hcon
    · rw [List.all_eq_true] at hinner
      have := hinner l2 h
      rw [Bool.and_eq_true] at this
      intro hcon
      subst hcon
      exact Bool.noConfusion this.1
    · subst h; exact hnm
  | ramanC k a b c d e fq g h i =>
    intro l2 hl2 hcon
    subst hcon
    simp at hl2
  | bornC body hbody =>
    intro l2 hl2
    simp only [List.cons_append, List.mem_cons, List.mem_append,
      List.mem_singleton, List.not_mem_nil, or_false] at hl2
    rcases hl2 with h | h | h
    · subst h; exact fun hcon => Line.noConfusion hcon
    · exact (bornBody_clean hbody).2 l2 h
    · subst h; exact fun hcon => Line.noConfusion hcon

/-- A chunk sequence contains no run-start markers. -/
theorem chunkSeq_count {body : List Line} (hcs : ChunkSeq body) :
    countRunStarted body = 0 := by
  induction hcs with
  | nil => rfl
  | cons c b hc hcs ih =>
    rw [countRunStarted_append, ih, countRunStarted_zero c (chunk_no_marker hc)]

/-- A skip prefix contains no run-start markers. -/
theorem skipSeq_count {pre : List Line} (hsk : SkipSeq pre) :
    countRunStarted pre = 0 := by
  induction hsk with
  | nil => rfl
  | cons l ls hl hsk ih =>
    have : l ≠ Line.runStarted := by
      intro hcon
      subst hcon
      exact Bool.noConfusion hl
    cases l <;> first | exact absurd rfl this | simpa [countRunStarted] using ih

/-- Crossing a chunk sequence: the sealed runs are untouched, the live run stays
started, and the loop resumes exactly at the remaining lines. -/
theorem chunkSeq_cross :
    ∀ {body : List Line}, ChunkSeq body → ∀ (rest : List Line) (fuel : Nat) (st : PState),
      started st.curr = true → (body ++ rest).length < fuel →
      ∃ curr', mainLoop fuel st (body ++ rest) =
        mainLoop (rest.length + 1) ⟨st.runs, curr'⟩ rest ∧ started curr' = true := by
  intro body hcs
  induction hcs with
  | nil =>
    intro rest fuel st hst hlen
    exact ⟨st.curr, mainLoop_fuel_eq fuel (rest.length + 1) st rest
      (by simpa using hlen) (Nat.lt_succ_self _), hst⟩
  | cons c b hc hcs ih =>
    intro rest fuel st hst hlen
    rw [List.append_assoc]
    obtain ⟨curr1, heq1, hst1⟩ := chunk_consume c hc (b ++ rest) fuel st hst
      (by rw [← List.append_assoc]; exact hlen)
    obtain ⟨curr2, heq2, hst2⟩ := ih rest ((b ++ rest).length + 1) ⟨st.runs, curr1⟩
      hst1 (Nat.lt_succ_self _)
    exact ⟨curr2, by rw [heq1, heq2], hst2⟩

/-- Crossing a skip prefix leaves the whole state untouched. -/
theorem skipSeq_cross :
    ∀ {pre : List Line}, SkipSeq pre → ∀ (body : List Line) (fuel : Nat) (st : PState),
      (pre ++ body).length < fuel →
      mainLoop fuel st (pre ++ body) = mainLoop (body.length + 1) st body := by
  intro pre hsk
  induction hsk with
  | nil =>
    intro body fuel st hlen
    exact mainLoop_fuel_eq fuel (body.length + 1) st body (by simpa using hlen)
      (Nat.lt_succ_self _)
  | cons l ls hl hsk ih =>
    intro body fuel st hlen
    cases fuel with
    | zero => exact absurd hlen (Nat.not_lt_zero _)
    | succ f =>
      simp only [List.cons_append, mainLoop, step_skip l _ st hl, Bind.bind, Except.bind]
      exact ih body f st (by simp only [List.length_append, List.length_cons,
        List.cons_append] at hlen ⊢; omega)

/-- Running a well-formed sequence of runs from a started live run seals one
record per marker plus the live run itself. -/
theorem wfruns_loop :
    ∀ {body : List Line}, WFRuns body → ∀ (fuel : Nat) (st : PState),
      started st.curr = true → body.length < fuel →
      ∃ out, mainLoop fuel st body = .ok out ∧
        out.length = st.runs.length + 1 + countRunStarted body := by
  intro body hwf
  induction hwf with
  | nil =>
    intro fuel st hst hlen
    obtain ⟨h1, h2, h3, h4⟩ := started_fields st.curr hst
    have hco : runCoerced st.curr = true := by simp [runCoerced, h3, h4]
    have htr : runTruthy st.curr = true := by simp [runTruthy, h2]
    refine ⟨st.runs ++ [st.curr], ?_, by simp [countRunStarted]⟩
    have hml : mainLoop fuel st [] = eofSeal st := by cases fuel <;> rfl
    rw [hml]
    simp [eofSeal, htr, fixRunTypes_coerced st.curr hco, Bind.bind, Except.bind]
  | run b rest hcs hwf ih =>
    intro fuel st hst hlen
    cases fuel with
    | zero => exact absurd hlen (Nat.not_lt_zero _)
    | succ f =>
      obtain ⟨h1, h2, h3, h4⟩ := started_fields st.curr hst
      have htr : runTruthy st.curr = true := by simp [runTruthy, h2]
      have hstep : step .runStarted (b ++ rest) st =
          .ok (⟨st.runs ++ [st.curr], freshRun⟩, b ++ rest) := by
        simp [step, htr]
      obtain ⟨curr1, heq1, hst1⟩ := chunkSeq_cross hcs rest f
        ⟨st.runs ++ [st.curr], freshRun⟩ (show started freshRun = true by decide)
        (by simp only [List.length_cons, List.length_append] at hlen ⊢; omega)
      obtain ⟨out, hout, hlen2⟩ := ih (rest.length + 1) ⟨st.runs ++ [st.curr], curr1⟩
        hst1 (Nat.lt_succ_self _)
      refine ⟨out, ?_, ?_⟩
      · show mainLoop (f + 1) st (Line.runStarted :: (b ++ rest)) = Except.ok out
        rw [mainLoop_cons_ok f st ⟨st.runs ++ [st.curr], freshRun⟩ .runStarted
          (b ++ rest) (b ++ rest) hstep, heq1]
        exact hout
      · rw [hlen2]
        have hb := chunkSeq_count hcs
        rw [List.cons_append]
        simp only [countRunStarted, List.append_eq, countRunStarted_append, hb,
          List.length_append, List.length_singleton]
        omega

/-- C1 counterexample: the claim states a log with k run-start markers yields
exactly k Run records (modulo the trailing-empty discard).  On `exC1` — a
stress block before the only marker — the pre-marker content is accumulated
into the initial plain dict, which becomes truthy and is sealed as an extra
record, so one marker yields two records. -/
theorem claim_C1_counterexample :
    parseCastepFile exC1 = .ok [rC1a, freshRun] ∧ countRunStarted exC1 = 1 ∧
      ([rC1a, freshRun] : List Run).length ≠ countRunStarted exC1 := by
  refine ⟨rfl, rfl, ?_⟩
  decide

/-- C1 as amended: when no handler-recognized content precedes the first
run-start marker (only lines the dispatch chain ignores) and every marker
starts a well-formed region of complete chunks (no marker hidden inside a
block's extent, no malformed rows), the parse succeeds and returns exactly one
Run record per marker; no trailing run is ever discarded, because every
started run carries the auto-installed `species_properties` key and is
therefore truthy at sealing time. -/
theorem claim_C1_amended (pre body : List Line) (h1 : SkipSeq pre) (h2 : WFRuns body) :
    ∃ out, parseCastepFile (pre ++ body) = .ok out ∧
      out.length = countRunStarted (pre ++ body) := by
  rw [parseCastepFile]
  rw [skipSeq_cross h1 body _ ⟨[], initRun⟩ (Nat.lt_succ_self _)]
  rw [countRunStarted_append, skipSeq_count h1]
  cases h2 with
  | nil => exact ⟨[], rfl, rfl⟩
  | run b rest hcs hwf =>
    have hstep : step .runStarted (b ++ rest) ⟨[], initRun⟩ =
        .ok (⟨[], freshRun⟩, b ++ rest) := by
      simp [step, runTruthy, initRun]
    obtain ⟨curr1, heq1, hst1⟩ := chunkSeq_cross hcs rest ((b ++ rest).length + 1)
      ⟨[], freshRun⟩ (show started freshRun = true by decide) (Nat.lt_succ_self _)
    obtain ⟨out, hout, hlen2⟩ := wfruns_loop hwf (rest.length + 1) ⟨[], curr1⟩
      hst1 (Nat.lt_succ_self _)
    refine ⟨out, ?_, ?_⟩
    · show mainLoop ((Line.runStarted :: (b ++ rest)).length + 1) ⟨[], initRun⟩
        (Line.runStarted :: (b ++ rest)) = .ok out
      rw [show (Line.runStarted :: (b ++ rest)).length + 1 =
        ((b ++ rest).length + 1) + 1 from by simp]
      rw [mainLoop_cons_ok ((b ++ rest).length + 1) ⟨[], initRun⟩ ⟨[], freshRun⟩
        .runStarted (b ++ rest) (b ++ rest) hstep, heq1]
      exact hout
    · rw [hlen2]
      have hb := chunkSeq_count hcs
      simp only [countRunStarted, List.append_eq, countRunStarted_append, hb,
        List.length_nil]
      omega

/-- Witness for the amended C1 at a concrete log: one ignored line, then two
markers, the first run holding one energy line. -/
theorem claim_C1_witness :
    ∃ out, parseCastepFile [Line.otherLine, Line.runStarted, Line.finalEnergy [2],
        Line.runStarted] = .ok out ∧
      out.length = countRunStarted [Line.otherLine, Line.runStarted,
        Line.finalEnergy [2], Line.runStarted] :=
  claim_C1_amended [Line.otherLine] [Line.runStarted, Line.finalEnergy [2], Line.runStarted]
    (SkipSeq.cons _ _ rfl SkipSeq.nil)
    (WFRuns.run [Line.finalEnergy [2]] [Line.runStarted]
      (ChunkSeq.cons [Line.finalEnergy [2]] [] (Chunk.energy [2] (by simp)) ChunkSeq.nil)
      (WFRuns.run [] [] ChunkSeq.nil WFRuns.nil))

end CastepOut
